import Mathlib

/-!
# A hierarchical timing wheel, verified

Shallow embedding of a Rust hierarchical timing wheel (`src/lib.rs`):
a sequence of fixed-size circular slot arrays ("rings") at increasing
time resolution.  Delays are `usize` values; in the embedding they are
`Nat` (the code performs no wrapping arithmetic on them).  Fallible
operations (`Vec` indexing, `Result::unwrap`) are modelled with
`Option`/`Except`: a `none` result marks a Rust panic.
-/

namespace TimingWheel

/-- One ring of the wheel: `struct Ring<T> { level, cursor, slots }`.
Each slot is a FIFO queue of `(residual_delay, payload)` pairs
(`VecDeque<(usize, T)>` in the source; `push_back` appends on the right,
`drain(..)` yields front-to-back order). -/
structure Ring (T : Type) where
  level : Nat
  cursor : Nat
  slots : List (List (Nat × T))
deriving DecidableEq

/-- `Ring::new`.  `slot_capacity` only pre-sizes each queue's storage
(`VecDeque::with_capacity`) and has no semantic effect, so the queues
start empty regardless of it. -/
def Ring.new (T : Type) (level slot_capacity slots_per_level : Nat) : Ring T :=
  { level := level
    cursor := 0
    slots := List.replicate slots_per_level [] }

/-- `Ring::span`: `self.slots.len().pow(self.level)`. -/
def Ring.span {T : Type} (r : Ring T) : Nat := r.slots.length ^ r.level

/-- `Ring::capacity`: `self.slots.len().pow(self.level + 1)`. -/
def Ring.capacity {T : Type} (r : Ring T) : Nat := r.slots.length ^ (r.level + 1)

/-- `Ring::tick`: advance the cursor by one (mod slot count) and drain the
slot the cursor now points at, returning its contents. -/
def Ring.tick {T : Type} (r : Ring T) : Ring T × List (Nat × T) :=
  let c := (r.cursor + 1) % r.slots.length
  ({ r with cursor := c, slots := r.slots.set c [] }, r.slots.getD c [])

/-- `Ring::place`: compute `slot_offset = remaining / span`, push
`(remaining % span, timer)` at the back of slot
`(cursor + slot_offset) % slots.len()`, and return that slot index. -/
def Ring.place {T : Type} (r : Ring T) (remaining : Nat) (timer : T) : Ring T × Nat :=
  let slot_offset := remaining / r.span
  let slot := (r.cursor + slot_offset) % r.slots.length
  let adjusted_remaining := remaining % r.span
  ({ r with slots := r.slots.set slot ((r.slots.getD slot []) ++ [(adjusted_remaining, timer)]) },
   slot)

/-- `enum ScheduleError { DelayTooLarge }`. -/
inductive ScheduleError where
  | DelayTooLarge
deriving DecidableEq

instance {ε α : Type} [DecidableEq ε] [DecidableEq α] : DecidableEq (Except ε α) := by
  intro a b
  cases a <;> cases b <;> first
    | (apply isFalse; intro h; exact Except.noConfusion h)
    | (rename_i x y
       exact if h : x = y then isTrue (by rw [h]) else
         isFalse (by intro hc; cases hc; exact h rfl))

/-- `struct HierarchicalTimingWheel<T> { rings: Vec<Ring<T>> }`. -/
structure HierarchicalTimingWheel (T : Type) where
  rings : List (Ring T)
deriving DecidableEq

/-- `HierarchicalTimingWheel::new`: one ring per level `0 ≤ level < levels`. -/
def HierarchicalTimingWheel.new (T : Type) (levels slot_capacity slots_per_level : Nat) :
    HierarchicalTimingWheel T :=
  ⟨(List.range levels).map fun level => Ring.new T level slot_capacity slots_per_level⟩

/-- The public constructor `pub fn hierarchical`. -/
def hierarchical (T : Type) (levels slot_capacity slots_per_level : Nat) :
    HierarchicalTimingWheel T :=
  HierarchicalTimingWheel.new T levels slot_capacity slots_per_level

/-- The first line of `schedule`:
`let delay_ticks = (delay_ticks == 0) as usize | delay_ticks;`
(bitwise or of the boolean-as-integer with the delay). -/
def normalizeDelay (delay_ticks : Nat) : Nat :=
  (if delay_ticks = 0 then 1 else 0) ||| delay_ticks

/-- The level-scan loop of `schedule`: walk the rings from level 0 upward,
place the timer in the first ring with `delay_ticks < capacity` and
`delay_ticks >= span`, and return the updated ring list together with
the `Result`.  When no ring accepts, the list is returned untouched and
the result is `DelayTooLarge`. -/
def scheduleGo {T : Type} :
    List (Ring T) → Nat → Nat → T → List (Ring T) × Except ScheduleError (Nat × Nat)
  | [], _, _, _ => ([], .error .DelayTooLarge)
  | ring :: rest, level, delay_ticks, timer =>
    if delay_ticks < ring.capacity ∧ ring.span ≤ delay_ticks then
      let ps := ring.place delay_ticks timer
      (ps.1 :: rest, .ok (level, ps.2))
    else
      let tailRes := scheduleGo rest (level + 1) delay_ticks timer
      (ring :: tailRes.1, tailRes.2)

/-- `HierarchicalTimingWheel::schedule`.  Returns the post-call wheel
(`&mut self` in Rust) together with the `Result<(level, slot), _>`. -/
def HierarchicalTimingWheel.schedule {T : Type} (w : HierarchicalTimingWheel T)
    (delay_ticks : Nat) (timer : T) :
    HierarchicalTimingWheel T × Except ScheduleError (Nat × Nat) :=
  let d := normalizeDelay delay_ticks
  let res := scheduleGo w.rings 0 d timer
  (⟨res.1⟩, res.2)

/-- The `should_tick` condition of the inner `tick` loop:
`i == 0 || (inner_ticked && self.rings[i - 1].cursor == 0)`, with `none`
for the panic of an out-of-bounds `self.rings[i - 1]` (the `||` and `&&`
short-circuit, as in the source). -/
def shouldTickAt {T : Type} (rings : List (Ring T)) (i : Nat) (innerTicked : Bool) :
    Option Bool :=
  if i = 0 then some true
  else if innerTicked then
    match rings[i - 1]? with
    | none => none
    | some prev => some (decide (prev.cursor = 0))
  else some false

/-- The body-and-continuation of the inner `loop` of `tick`.  `i` is the
ring index, `innerTicked` the `inner_ticked` flag; ring 0's drained
payloads go to `due`, coarser rings' drained pairs to `graduated`.  A
`none` result is a Rust panic: `self.rings[i]` (or `self.rings[i - 1]`)
indexed out of bounds.  The source loop runs its body once per index and
breaks when the incremented index reaches `self.rings.len()`, i.e. it
performs exactly `rings.len() - i` more iterations (at least one); `k`
counts those remaining iterations so that the recursion is structural:
`k = 0` is the `break`. -/
def tickLoopGo {T : Type} :
    Nat → List (Ring T) → Nat → Bool → List T → List (Nat × T) →
    Option (List (Ring T) × List T × List (Nat × T))
  | 0, rings, _, _, due, graduated => some (rings, due, graduated)
  | k + 1, rings, i, innerTicked, due, graduated =>
    match shouldTickAt rings i innerTicked with
    | none => none
    | some st =>
      if st then
        match rings[i]? with
        | none => none
        | some ring =>
          let tr := Ring.tick ring
          let due' := if i = 0 then due ++ tr.2.map Prod.snd else due
          let graduated' := if i = 0 then graduated else graduated ++ tr.2
          tickLoopGo k (rings.set i tr.1) (i + 1) true due' graduated'
      else tickLoopGo k rings (i + 1) false due graduated

/-- The inner `loop` of `tick`, entered at `i = 0` with `inner_ticked =
false`.  The loop body runs at least once even for an empty ring vector
(where it panics on `self.rings[0]`), hence the `max _ 1`. -/
def tickLoop {T : Type} (rings : List (Ring T)) (due : List T) (graduated : List (Nat × T)) :
    Option (List (Ring T) × List T × List (Nat × T)) :=
  tickLoopGo (max rings.length 1) rings 0 false due graduated

/-- The `for (remaining_delay, timer) in graduated` loop at the end of a
`tick` pass: residual `0` is due now, anything else is re-scheduled
through `schedule`, whose result is `unwrap`ped (`none` = panic). -/
def processGraduated {T : Type} (w : HierarchicalTimingWheel T) :
    List (Nat × T) → List T → Option (HierarchicalTimingWheel T × List T)
  | [], due => some (w, due)
  | (remaining_delay, timer) :: rest, due =>
    if remaining_delay = 0 then processGraduated w rest (due ++ [timer])
    else
      let sr := w.schedule remaining_delay timer
      match sr.2 with
      | .ok _ => processGraduated sr.1 rest due
      | .error _ => none

/-- One iteration of the outer `for _ in 0..steps` loop of `tick`. -/
def tickPass {T : Type} (w : HierarchicalTimingWheel T) (due : List T) :
    Option (HierarchicalTimingWheel T × List T) :=
  match tickLoop w.rings due [] with
  | none => none
  | some (rings', due', graduated) => processGraduated ⟨rings'⟩ graduated due'

/-- The outer loop of `tick`: `steps` passes, accumulating `due`. -/
def tickAux {T : Type} : HierarchicalTimingWheel T → Nat → List T →
    Option (HierarchicalTimingWheel T × List T)
  | w, 0, due => some (w, due)
  | w, steps + 1, due =>
    match tickPass w due with
    | none => none
    | some (w', due') => tickAux w' steps due'

/-- `HierarchicalTimingWheel::tick(steps)`: the final wheel together with
the list of due payloads, or `none` if the call panics. -/
def HierarchicalTimingWheel.tick {T : Type} (w : HierarchicalTimingWheel T) (steps : Nat) :
    Option (HierarchicalTimingWheel T × List T) :=
  tickAux w steps []

/-! ## Specification-side definitions -/

/-- `n` single-step `tick` calls in a row, results concatenated in order:
the reference point for the multi-step-equivalence property. -/
def tickIter {T : Type} (w : HierarchicalTimingWheel T) :
    Nat → Option (HierarchicalTimingWheel T × List T)
  | 0 => some (w, [])
  | n + 1 =>
    match w.tick 1 with
    | none => none
    | some p =>
      match tickIter p.1 n with
      | none => none
      | some q => some (q.1, p.2 ++ q.2)

/-- Structural well-formedness of a wheel: `n` rings, the ring at index
`L` carries `level = L` and has `S` slots.  Holds for every wheel built
by `new n _ S` and is preserved by every operation. -/
def WheelShape {T : Type} (S n : Nat) (w : HierarchicalTimingWheel T) : Prop :=
  w.rings.length = n ∧
  ∀ L (r : Ring T), w.rings[L]? = some r → r.level = L ∧ r.slots.length = S

/-- States reachable from a freshly constructed wheel by any sequence of
`schedule` and `tick` calls, indexed by the total number of base ticks
applied so far. -/
inductive Reachable (T : Type) (S n cap : Nat) : Nat → HierarchicalTimingWheel T → Prop where
  | init : Reachable T S n cap 0 (HierarchicalTimingWheel.new T n cap S)
  | sched {t w} (d : Nat) (x : T) :
      Reachable T S n cap t w → Reachable T S n cap t (w.schedule d x).1
  | step {t w} (k : Nat) {w' out} :
      Reachable T S n cap t w → w.tick k = some (w', out) → Reachable T S n cap (t + k) w'

/-- The cursor position of the level-`L` ring after `t` base ticks: the
rings behave like an odometer in base `S`. -/
def cursorAt (S L t : Nat) : Nat := t / S ^ L % S

/-- Forward distance (in slots) from cursor `c` to slot `i` around a ring
of `S` slots: `(i - c) mod S` computed in `Nat`. -/
def offsetFrom (S c i : Nat) : Nat := (i + S - c) % S

/-- The absolute base tick at which an entry sitting in slot `i` of the
level-`L` ring with residual delay `rd` is handed back to the caller,
when the wheel has seen `t` base ticks so far. -/
def dlOf (S t L i rd : Nat) : Nat :=
  (t - t % S ^ L) + offsetFrom S (cursorAt S L t) i * S ^ L + rd

/-- Concatenation of a list of lists (in order). -/
def concatL {α : Type} : List (List α) → List α
  | [] => []
  | l :: ls => l ++ concatL ls

/-- The payloads in slot `i` (queue `q`) of a level-`L` ring that are due
exactly at absolute base tick `dl`, in queue order. -/
def slotDue {T : Type} (S t L i dl : Nat) (q : List (Nat × T)) : List T :=
  (q.filter fun e => dlOf S t L i e.1 == dl).map Prod.snd

/-- The payloads in ring `r` due exactly at absolute base tick `dl`, in
slot-index order (at most one slot contributes). -/
def ringDue {T : Type} (S t dl : Nat) (r : Ring T) : List T :=
  concatL ((List.range r.slots.length).map fun i => slotDue S t r.level i dl (r.slots.getD i []))

/-- The payloads in the whole wheel due exactly at absolute base tick
`dl`, level by level. -/
def wheelDue {T : Type} (S t dl : Nat) (w : HierarchicalTimingWheel T) : List T :=
  concatL (w.rings.map (ringDue S t dl))

/-- `wheelDue` restricted to the rings below level `k`. -/
def wheelDueUpTo {T : Type} (S t dl k : Nat) (w : HierarchicalTimingWheel T) : List T :=
  concatL ((w.rings.take k).map (ringDue S t dl))

/-- `wheelDue` restricted to the rings at level `k` and above. -/
def wheelDueFrom {T : Type} (S t dl k : Nat) (w : HierarchicalTimingWheel T) : List T :=
  concatL ((w.rings.drop k).map (ringDue S t dl))

/-- Per-ring invariant after `t` base ticks: correct level and slot count,
odometer cursor, an empty slot under the cursor, and every stored residual
delay below the ring's span. -/
def RingInv {T : Type} (S t L : Nat) (r : Ring T) : Prop :=
  r.level = L ∧ r.slots.length = S ∧ r.cursor = cursorAt S L t ∧
  r.slots.getD r.cursor [] = [] ∧
  ∀ (i : Nat) (q : List (Nat × T)), r.slots[i]? = some q → ∀ e ∈ q, e.1 < S ^ L

/-- Whole-wheel invariant after `t` base ticks. -/
def Inv {T : Type} (S n t : Nat) (w : HierarchicalTimingWheel T) : Prop :=
  w.rings.length = n ∧ ∀ L (r : Ring T), w.rings[L]? = some r → RingInv S t L r

/-- The cascade chain of the inner `tick` loop, restricted to the rings
above level 0: tick the first ring of the suffix and keep going while the
ticked ring's cursor has wrapped to 0, collecting everything drained.
`tickLoop` is proved equal to one head step followed by this chain. -/
def chainDrain {T : Type} : List (Ring T) → List (Ring T) × List (Nat × T)
  | [] => ([], [])
  | r :: rest =>
    let tr := Ring.tick r
    if tr.1.cursor = 0 then
      let cd := chainDrain rest
      (tr.1 :: cd.1, tr.2 ++ cd.2)
    else (tr.1 :: rest, tr.2)

/-! ## Basic lemmas -/

@[simp] theorem concatL_nil {α : Type} : concatL ([] : List (List α)) = [] := rfl

@[simp] theorem concatL_cons {α : Type} (l : List α) (ls : List (List α)) :
    concatL (l :: ls) = l ++ concatL ls := rfl

theorem concatL_append {α : Type} (as bs : List (List α)) :
    concatL (as ++ bs) = concatL as ++ concatL bs := by
  induction as with
  | nil => simp
  | cons a as ih => simp [ih]

theorem normalizeDelay_eq (d : Nat) : normalizeDelay d = if d = 0 then 1 else d := by
  cases d with
  | zero => rfl
  | succ n => simp [normalizeDelay, Nat.zero_or]

theorem normalizeDelay_pos (d : Nat) : 1 ≤ normalizeDelay d := by
  rw [normalizeDelay_eq]
  split <;> omega

theorem normalizeDelay_of_pos {d : Nat} (h : 1 ≤ d) : normalizeDelay d = d := by
  rw [normalizeDelay_eq]
  split <;> omega

/-! ## The level-scan of `schedule` -/

theorem scheduleGo_error_eq {T : Type} :
    ∀ (rings : List (Ring T)) (lvl d : Nat) (x : T),
      (scheduleGo rings lvl d x).2 = .error .DelayTooLarge →
      (scheduleGo rings lvl d x).1 = rings := by
  intro rings
  induction rings with
  | nil => intro lvl d x _; rfl
  | cons ring rest ih =>
    intro lvl d x h
    by_cases hc : d < ring.capacity ∧ ring.span ≤ d
    · simp [scheduleGo, hc] at h
    · simp only [scheduleGo, if_neg hc] at h ⊢
      rw [ih (lvl + 1) d x h]

theorem scheduleGo_all_reject {T : Type} :
    ∀ (rings : List (Ring T)) (lvl d : Nat) (x : T),
      (∀ (j : Nat) (r : Ring T), rings[j]? = some r → ¬(d < r.capacity ∧ r.span ≤ d)) →
      scheduleGo rings lvl d x = (rings, .error .DelayTooLarge) := by
  intro rings
  induction rings with
  | nil => intro lvl d x _; rfl
  | cons ring rest ih =>
    intro lvl d x h
    have h0 := h 0 ring (by simp)
    have hrest : ∀ (j : Nat) (r : Ring T), rest[j]? = some r → ¬(d < r.capacity ∧ r.span ≤ d) := by
      intro j r hj
      exact h (j + 1) r (by simpa using hj)
    simp only [scheduleGo, if_neg h0]
    rw [ih (lvl + 1) d x hrest]

theorem scheduleGo_ok_at {T : Type} :
    ∀ (rings : List (Ring T)) (lvl d : Nat) (x : T) (j : Nat) (r : Ring T),
      rings[j]? = some r → (d < r.capacity ∧ r.span ≤ d) →
      (∀ (j2 : Nat) (r2 : Ring T), j2 < j → rings[j2]? = some r2 →
        ¬(d < r2.capacity ∧ r2.span ≤ d)) →
      scheduleGo rings lvl d x = (rings.set j (r.place d x).1, .ok (lvl + j, (r.place d x).2)) := by
  intro rings
  induction rings with
  | nil => intro lvl d x j r hj; simp at hj
  | cons ring rest ih =>
    intro lvl d x j r hj hacc hbefore
    cases j with
    | zero =>
      simp only [List.getElem?_cons_zero, Option.some.injEq] at hj
      subst hj
      simp [scheduleGo, if_pos hacc]
    | succ j =>
      have h0 : ¬(d < ring.capacity ∧ ring.span ≤ d) := hbefore 0 ring (by omega) (by simp)
      simp only [scheduleGo, if_neg h0]
      have hj' : rest[j]? = some r := by simpa using hj
      have hbefore' : ∀ (j2 : Nat) (r2 : Ring T), j2 < j → rest[j2]? = some r2 →
          ¬(d < r2.capacity ∧ r2.span ≤ d) := by
        intro j2 r2 hlt hget
        exact hbefore (j2 + 1) r2 (by omega) (by simpa using hget)
      rw [ih (lvl + 1) d x j r hj' hacc hbefore']
      simp [List.set_cons_succ]
      omega

theorem scheduleGo_ok_elim {T : Type} :
    ∀ (rings : List (Ring T)) (lvl d : Nat) (x : T) (L s : Nat),
      (scheduleGo rings lvl d x).2 = .ok (L, s) →
      ∃ (j : Nat) (r : Ring T), rings[j]? = some r ∧ L = lvl + j ∧
        (d < r.capacity ∧ r.span ≤ d) ∧ s = (r.place d x).2 ∧
        (scheduleGo rings lvl d x).1 = rings.set j (r.place d x).1 := by
  intro rings
  induction rings with
  | nil => intro lvl d x L s h; simp [scheduleGo] at h
  | cons ring rest ih =>
    intro lvl d x L s h
    by_cases hc : d < ring.capacity ∧ ring.span ≤ d
    · refine ⟨0, ring, by simp, ?_, hc, ?_, ?_⟩ <;>
        simp only [scheduleGo, if_pos hc] at h ⊢ <;>
        simp at h ⊢ <;> omega
    · simp only [scheduleGo, if_neg hc] at h ⊢
      obtain ⟨j, r, hget, hL, hacc, hs, heq⟩ := ih (lvl + 1) d x L s h
      exact ⟨j + 1, r, by simpa using hget, by omega, hacc, hs, by simp [heq]⟩

/-! ## Wheel-level schedule lemmas -/

theorem shape_span_capacity {T : Type} {S n : Nat} {w : HierarchicalTimingWheel T}
    (hw : WheelShape S n w) {j : Nat} {r : Ring T} (hj : w.rings[j]? = some r) :
    r.span = S ^ j ∧ r.capacity = S ^ (j + 1) := by
  obtain ⟨hlvl, hlen⟩ := hw.2 j r hj
  constructor <;> simp [Ring.span, Ring.capacity, hlvl, hlen]

theorem exists_level_iff {S n d : Nat} (hd : 1 ≤ d) :
    (∃ L, L < n ∧ S ^ L ≤ d ∧ d < S ^ (L + 1)) ↔ d < S ^ n := by
  constructor
  · rintro ⟨L, hLn, _, h2⟩
    rcases Nat.eq_zero_or_pos S with hS | hS
    · subst hS; simp [Nat.zero_pow] at h2
    · exact lt_of_lt_of_le h2 (Nat.pow_le_pow_right hS (by omega))
  · intro h
    induction n with
    | zero => rw [Nat.pow_zero] at h; omega
    | succ n ih =>
      by_cases hn : d < S ^ n
      · obtain ⟨L, hLn, h1, h2⟩ := ih hn
        exact ⟨L, by omega, h1, h2⟩
      · exact ⟨n, by omega, by omega, h⟩

theorem shape_ring_exists {T : Type} {S n : Nat} {w : HierarchicalTimingWheel T}
    (hw : WheelShape S n w) {j : Nat} (hj : j < n) :
    ∃ r : Ring T, w.rings[j]? = some r := by
  have hlen := hw.1
  have : j < w.rings.length := by omega
  exact ⟨w.rings[j], (List.getElem?_eq_some_getElem_iff _ _ this).mpr trivial⟩

/-- When the (normalized) delay fits the wheel, the scan accepts it at
exactly level `log S d`, placing through `Ring::place`. -/
theorem schedule_ok_of_lt {T : Type} {S n : Nat} {w : HierarchicalTimingWheel T}
    (hw : WheelShape S n w) (hS : 2 ≤ S) {d : Nat} (x : T)
    (hlt : normalizeDelay d < S ^ n) :
    ∃ r : Ring T, w.rings[Nat.log S (normalizeDelay d)]? = some r ∧
      w.schedule d x =
        (⟨w.rings.set (Nat.log S (normalizeDelay d)) (r.place (normalizeDelay d) x).1⟩,
         .ok (Nat.log S (normalizeDelay d), (r.place (normalizeDelay d) x).2)) := by
  have hd1 := normalizeDelay_pos d
  set d' := normalizeDelay d with hd'
  set L := Nat.log S d' with hL
  have hpow1 : S ^ L ≤ d' := Nat.pow_log_le_self S (by omega)
  have hpow2 : d' < S ^ (L + 1) := Nat.lt_pow_succ_log_self (by omega) d'
  have hLn : L < n := by
    by_contra hge
    have : S ^ n ≤ S ^ L := Nat.pow_le_pow_right (by omega) (by omega)
    omega
  obtain ⟨r, hr⟩ := shape_ring_exists hw hLn
  obtain ⟨hsp, hcap⟩ := shape_span_capacity hw hr
  refine ⟨r, hr, ?_⟩
  have hsched := scheduleGo_ok_at w.rings 0 d' x L r hr (by omega) ?_
  · rw [Nat.zero_add] at hsched
    simp only [HierarchicalTimingWheel.schedule, ← hd', hsched]
  · intro j2 r2 hj2 hget
    obtain ⟨hsp2, hcap2⟩ := shape_span_capacity hw hget
    have : S ^ (j2 + 1) ≤ S ^ L := Nat.pow_le_pow_right (by omega) (by omega)
    rintro ⟨hc, _⟩
    omega

theorem schedule_error_iff {T : Type} {S n : Nat} {w : HierarchicalTimingWheel T}
    (hw : WheelShape S n w) (d : Nat) (x : T) :
    (w.schedule d x).2 = .error .DelayTooLarge ↔ S ^ n ≤ normalizeDelay d := by
  have hd1 := normalizeDelay_pos d
  constructor
  · intro herr
    by_contra hlt
    push_neg at hlt
    rcases Nat.lt_or_ge S 2 with hS | hS
    · -- S = 0 or 1: S ^ n ≤ 1 ≤ normalizeDelay d always, contradiction with hlt
      have hle : S ^ n ≤ 1 := by
        interval_cases S
        · rcases Nat.eq_zero_or_pos n with hn | hn
          · subst hn; simp
          · rw [Nat.zero_pow (by omega)]; omega
        · simp
      omega
    · obtain ⟨r, _, heq⟩ := schedule_ok_of_lt hw hS x hlt
      rw [heq] at herr
      exact Except.noConfusion herr
  · intro hge
    have hall : ∀ (j : Nat) (r : Ring T), w.rings[j]? = some r →
        ¬(normalizeDelay d < r.capacity ∧ r.span ≤ normalizeDelay d) := by
      intro j r hj
      obtain ⟨hsp, hcap⟩ := shape_span_capacity hw hj
      have hjlt : j < n := by
        have hlen := hw.1
        by_contra hge2
        rw [List.getElem?_eq_none (by omega)] at hj
        exact Option.noConfusion hj
      rintro ⟨hc1, _⟩
      rw [hcap] at hc1
      rcases Nat.eq_zero_or_pos S with hS | hS
      · subst hS; rw [Nat.zero_pow (by omega)] at hc1; omega
      · have : S ^ (j + 1) ≤ S ^ n := Nat.pow_le_pow_right hS (by omega)
        omega
    have := scheduleGo_all_reject w.rings 0 (normalizeDelay d) x hall
    simp [HierarchicalTimingWheel.schedule, this]

/-! ## Accumulator lemmas for `tick` -/

theorem tickLoopGo_acc {T : Type} :
    ∀ (k : Nat) (rings : List (Ring T)) (i : Nat) (it : Bool) (due : List T)
      (grad : List (Nat × T)),
      tickLoopGo k rings i it due grad =
        (tickLoopGo k rings i it [] []).map fun p => (p.1, due ++ p.2.1, grad ++ p.2.2) := by
  intro k
  induction k with
  | zero => intro rings i it due grad; simp [tickLoopGo]
  | succ k ih =>
    intro rings i it due grad
    simp only [tickLoopGo]
    cases hst : shouldTickAt rings i it with
    | none => simp
    | some st =>
      cases st with
      | false =>
        simp only [Bool.false_eq_true, if_false]
        rw [ih rings (i + 1) false due grad, ih rings (i + 1) false [] []]
        try (cases tickLoopGo k rings (i + 1) false [] [] <;> simp)
      | true =>
        simp only [if_true]
        cases hr : rings[i]? with
        | none => simp
        | some ring =>
          simp only []
          rw [ih (rings.set i (Ring.tick ring).1) (i + 1) true
                (if i = 0 then due ++ (Ring.tick ring).2.map Prod.snd else due)
                (if i = 0 then grad else grad ++ (Ring.tick ring).2),
              ih (rings.set i (Ring.tick ring).1) (i + 1) true
                (if i = 0 then [] ++ (Ring.tick ring).2.map Prod.snd else [])
                (if i = 0 then [] else [] ++ (Ring.tick ring).2)]
          cases tickLoopGo k (rings.set i (Ring.tick ring).1) (i + 1) true [] [] <;>
            by_cases hi : i = 0 <;> simp [hi]

theorem processGraduated_acc {T : Type} :
    ∀ (grad : List (Nat × T)) (w : HierarchicalTimingWheel T) (due : List T),
      processGraduated w grad due =
        (processGraduated w grad []).map fun p => (p.1, due ++ p.2) := by
  intro grad
  induction grad with
  | nil => intro w due; simp [processGraduated]
  | cons e rest ih =>
    intro w due
    obtain ⟨rd, x⟩ := e
    by_cases h0 : rd = 0
    · subst h0
      simp only [processGraduated, if_pos rfl]
      rw [ih w (due ++ [x]), ih w ([] ++ [x])]
      cases processGraduated w rest [] <;> simp
    · simp only [processGraduated, if_neg h0]
      cases hs : (w.schedule rd x).2 with
      | error e => simp
      | ok v => exact ih _ due

theorem tickPass_acc {T : Type} (w : HierarchicalTimingWheel T) (due : List T) :
    tickPass w due = (tickPass w []).map fun p => (p.1, due ++ p.2) := by
  simp only [tickPass, tickLoop]
  rw [tickLoopGo_acc (max w.rings.length 1) w.rings 0 false due []]
  cases hbase : tickLoopGo (max w.rings.length 1) w.rings 0 false [] [] with
  | none => simp
  | some p =>
    obtain ⟨r', d', g'⟩ := p
    simp only [Option.map, List.nil_append]
    rw [processGraduated_acc g' ⟨r'⟩ (due ++ d'), processGraduated_acc g' ⟨r'⟩ d']
    cases processGraduated (⟨r'⟩ : HierarchicalTimingWheel T) g' [] <;> simp

theorem tick_one {T : Type} (w : HierarchicalTimingWheel T) :
    w.tick 1 = tickPass w [] := by
  simp only [HierarchicalTimingWheel.tick, tickAux]
  cases h : tickPass w [] with
  | none => rfl
  | some p => rfl

theorem tickAux_acc {T : Type} :
    ∀ (n : Nat) (w : HierarchicalTimingWheel T) (due : List T),
      tickAux w n due = (tickAux w n []).map fun p => (p.1, due ++ p.2) := by
  intro n
  induction n with
  | zero => intro w due; simp [tickAux]
  | succ n ih =>
    intro w due
    simp only [tickAux]
    rw [tickPass_acc w due]
    cases h : tickPass w [] with
    | none => simp
    | some p =>
      obtain ⟨w1, d1⟩ := p
      simp only [Option.map]
      rw [ih w1 d1, ih w1 (due ++ d1)]
      cases tickAux w1 n [] <;> simp

/-- Claim C6: for every wheel state and every `n ≥ 0`, `tick(n)` returns
exactly the concatenation, in order, of the results of `n` single-step
`tick(1)` calls, and leaves the wheel in the same final state (either
both panic or both produce the same wheel and payload sequence). -/
theorem C6_tick_steps_eq_iterated {T : Type} (w : HierarchicalTimingWheel T) (n : Nat) :
    w.tick n = tickIter w n := by
  induction n generalizing w with
  | zero => rfl
  | succ n ih =>
    have hone := tick_one w
    cases h : tickPass w [] with
    | none =>
      have hL : w.tick (n + 1) = none := by
        simp only [HierarchicalTimingWheel.tick, tickAux]; rw [h]
      rw [hL, tickIter, hone, h]
    | some p =>
      obtain ⟨w1, d1⟩ := p
      have hL : w.tick (n + 1) = (w1.tick n).map fun q => (q.1, d1 ++ q.2) := by
        simp only [HierarchicalTimingWheel.tick, tickAux]
        rw [h]
        exact tickAux_acc n w1 d1
      have hR : tickIter w (n + 1) = match tickIter w1 n with
          | none => none
          | some q => some (q.1, d1 ++ q.2) := by
        simp only [tickIter]
        rw [hone, h]
      rw [hL, ih w1, hR]
      cases tickIter w1 n <;> simp

/-! ## Claims C4, C5, C9, C10 -/

/-- Claim C4: `schedule` returns `DelayTooLarge` iff the normalized delay
(0 mapped to 1) is at least the topmost ring's capacity `S ^ n`; a delay
exactly `S ^ n` is rejected, and `S ^ n - 1` is accepted at the topmost
level `n - 1`. -/
theorem C4_delay_too_large_iff {T : Type} (S n : Nat) (w : HierarchicalTimingWheel T)
    (hw : WheelShape S n w) (d : Nat) (x : T) :
    ((w.schedule d x).2 = .error .DelayTooLarge ↔ S ^ n ≤ normalizeDelay d) ∧
    (2 ≤ S → 1 ≤ n →
      (w.schedule (S ^ n) x).2 = .error .DelayTooLarge ∧
      ∃ s : Nat, (w.schedule (S ^ n - 1) x).2 = .ok (n - 1, s)) := by
  refine ⟨schedule_error_iff hw d x, fun hS hn => ⟨?_, ?_⟩⟩
  · have hpos : 1 ≤ S ^ n := Nat.one_le_pow n S (by omega)
    exact (schedule_error_iff hw (S ^ n) x).mpr (by rw [normalizeDelay_of_pos hpos])
  · have hn' : n - 1 + 1 = n := by omega
    have hp1 : 1 ≤ S ^ (n - 1) := Nat.one_le_pow _ S (by omega)
    have h2 : 2 * S ^ (n - 1) ≤ S ^ n := by
      calc 2 * S ^ (n - 1) ≤ S ^ (n - 1) * S := by rw [Nat.mul_comm]; exact Nat.mul_le_mul_left _ hS
      _ = S ^ n := by rw [← Nat.pow_succ]; congr 1
    have hd1 : 1 ≤ S ^ n - 1 := by omega
    have hnd : normalizeDelay (S ^ n - 1) = S ^ n - 1 := normalizeDelay_of_pos hd1
    have hlt : normalizeDelay (S ^ n - 1) < S ^ n := by omega
    obtain ⟨r, hr, heq⟩ := schedule_ok_of_lt hw hS x hlt
    have hlog : Nat.log S (normalizeDelay (S ^ n - 1)) = n - 1 := by
      apply Nat.log_eq_of_pow_le_of_lt_pow
      · rw [hnd]; omega
      · rw [hnd, hn']; omega
    rw [hlog] at heq
    exact ⟨(r.place (normalizeDelay (S ^ n - 1)) x).2, by rw [heq]⟩

/-- Witness for C4 at a concrete wheel: 1 level of 10 slots; delay 10 is
rejected, delay 9 is accepted at level 0. -/
theorem C4_witness :
    (((HierarchicalTimingWheel.new Nat 1 16 10).schedule 10 5).2 = .error .DelayTooLarge ↔
      10 ^ 1 ≤ normalizeDelay 10) ∧
    (((HierarchicalTimingWheel.new Nat 1 16 10).schedule (10 ^ 1) 5).2 = .error .DelayTooLarge ∧
      ∃ s : Nat, ((HierarchicalTimingWheel.new Nat 1 16 10).schedule (10 ^ 1 - 1) 5).2 =
        .ok (1 - 1, s)) := by
  have h := C4_delay_too_large_iff 10 1 (HierarchicalTimingWheel.new Nat 1 16 10)
    (by constructor
        · decide
        · intro L r hr
          match L, hr with
          | 0, hr => exact ⟨by simpa using congrArg Ring.level (Option.some.inj hr).symm,
                            by simpa using congrArg (fun r => r.slots.length) (Option.some.inj hr).symm⟩)
    10 5
  exact ⟨h.1, h.2 (by omega) (by omega)⟩

/-- Claim C5: level/slot addressing on a freshly constructed 3-level wheel
with 10 slots per level: delay 9 lands at (0,9), 10 at (1,1), 99 at (1,9),
100 at (2,1), 999 at (2,9), and 1000 is rejected. -/
theorem C5_level_slot_addressing :
    (((HierarchicalTimingWheel.new Nat 3 16 10).schedule 9 0).2 = .ok (0, 9)) ∧
    (((HierarchicalTimingWheel.new Nat 3 16 10).schedule 10 0).2 = .ok (1, 1)) ∧
    (((HierarchicalTimingWheel.new Nat 3 16 10).schedule 99 0).2 = .ok (1, 9)) ∧
    (((HierarchicalTimingWheel.new Nat 3 16 10).schedule 100 0).2 = .ok (2, 1)) ∧
    (((HierarchicalTimingWheel.new Nat 3 16 10).schedule 999 0).2 = .ok (2, 9)) ∧
    (((HierarchicalTimingWheel.new Nat 3 16 10).schedule 1000 0).2 =
      .error .DelayTooLarge) := by
  refine ⟨?_, ?_, ?_, ?_, ?_, ?_⟩ <;> decide

/-- Claim C9: `schedule` either rejects with the wheel completely
unchanged, or places exactly one new entry: the ring at the returned
level gets the pair `(d' % span, payload)` appended at the back of the
returned slot, everything else identical. -/
theorem C9_schedule_atomicity {T : Type} (w : HierarchicalTimingWheel T) (d : Nat) (x : T) :
    (∀ e : ScheduleError, (w.schedule d x).2 = .error e → (w.schedule d x).1 = w) ∧
    (∀ L s : Nat, (w.schedule d x).2 = .ok (L, s) →
      ∃ r : Ring T, w.rings[L]? = some r ∧
        s = (r.cursor + normalizeDelay d / r.span) % r.slots.length ∧
        (w.schedule d x).1.rings = w.rings.set L
          { r with slots :=
              r.slots.set s ((r.slots.getD s []) ++ [(normalizeDelay d % r.span, x)]) }) := by
  constructor
  · intro e herr
    cases e
    have h1 : (scheduleGo w.rings 0 (normalizeDelay d) x).2 = .error .DelayTooLarge := by
      simpa [HierarchicalTimingWheel.schedule] using herr
    have h2 := scheduleGo_error_eq w.rings 0 (normalizeDelay d) x h1
    simp [HierarchicalTimingWheel.schedule, h2]
  · intro L s hok
    have h1 : (scheduleGo w.rings 0 (normalizeDelay d) x).2 = .ok (L, s) := by
      simpa [HierarchicalTimingWheel.schedule] using hok
    obtain ⟨j, r, hget, hL, _, hs, heq⟩ :=
      scheduleGo_ok_elim w.rings 0 (normalizeDelay d) x L s h1
    have hj : j = L := by omega
    subst hj
    refine ⟨r, hget, by rw [hs]; rfl, ?_⟩
    simp only [HierarchicalTimingWheel.schedule]
    rw [heq, hs]
    rfl

/-- Witness for C9: on a fresh 1-level wheel, delay 10 is rejected with
the wheel unchanged, and delay 1 appends exactly one entry in slot 1 of
ring 0. -/
theorem C9_witness :
    ((HierarchicalTimingWheel.new Nat 1 16 10).schedule 10 5).1 =
      HierarchicalTimingWheel.new Nat 1 16 10 ∧
    (∃ r : Ring Nat, (HierarchicalTimingWheel.new Nat 1 16 10).rings[0]? = some r ∧
      (1 : Nat) = (r.cursor + normalizeDelay 1 / r.span) % r.slots.length ∧
      ((HierarchicalTimingWheel.new Nat 1 16 10).schedule 1 5).1.rings =
        (HierarchicalTimingWheel.new Nat 1 16 10).rings.set 0
          { r with slots :=
              r.slots.set 1 ((r.slots.getD 1 []) ++ [(normalizeDelay 1 % r.span, 5)]) }) :=
  ⟨(C9_schedule_atomicity (HierarchicalTimingWheel.new Nat 1 16 10) 10 5).1
      .DelayTooLarge (by decide),
   (C9_schedule_atomicity (HierarchicalTimingWheel.new Nat 1 16 10) 1 5).2 0 1 (by decide)⟩

theorem tickLoopGo_isSome {T : Type} :
    ∀ (k : Nat) (rings : List (Ring T)) (i : Nat) (it : Bool) (due : List T)
      (grad : List (Nat × T)),
      rings.length = i + k → (tickLoopGo k rings i it due grad).isSome := by
  intro k
  induction k with
  | zero => intro rings i it due grad _; simp [tickLoopGo]
  | succ k ih =>
    intro rings i it due grad hlen
    have hi : i < rings.length := by omega
    simp only [tickLoopGo]
    have hst : ∃ b, shouldTickAt rings i it = some b := by
      by_cases hi0 : i = 0
      · exact ⟨true, by simp [shouldTickAt, hi0]⟩
      · cases it
        · exact ⟨false, by simp [shouldTickAt, hi0]⟩
        · have hi1 : i - 1 < rings.length := by omega
          exact ⟨decide (rings[i - 1].cursor = 0),
            by simp [shouldTickAt, hi0, List.getElem?_eq_getElem hi1]⟩
    obtain ⟨b, hb⟩ := hst
    rw [hb]
    cases b
    · simp only [Bool.false_eq_true, if_false]
      exact ih rings (i + 1) false due grad (by omega)
    · simp only [if_true]
      rw [List.getElem?_eq_getElem hi]
      simp only []
      exact ih _ (i + 1) true _ _ (by simp [List.length_set]; omega)

/-- Claim C10: construction performs no validation.  A 0-level wheel
rejects every delay with the wheel unchanged, and any `tick(k)` with
`k ≥ 1` panics on the out-of-bounds `self.rings[0]` (the embedding's
`none`).  For every wheel with at least one ring, the drain loop's ring
indexing is always in bounds (it never produces the panic `none`). -/
theorem C10_no_construction_validation (T : Type) :
    (∀ (cap S d : Nat) (x : T),
      ((HierarchicalTimingWheel.new T 0 cap S).schedule d x).1 =
        HierarchicalTimingWheel.new T 0 cap S ∧
      ((HierarchicalTimingWheel.new T 0 cap S).schedule d x).2 = .error .DelayTooLarge) ∧
    (∀ (cap S k : Nat), 1 ≤ k → (HierarchicalTimingWheel.new T 0 cap S).tick k = none) ∧
    (∀ w : HierarchicalTimingWheel T, 1 ≤ w.rings.length →
      ∀ (due : List T) (grad : List (Nat × T)), (tickLoop w.rings due grad).isSome) := by
  refine ⟨fun cap S d x => ⟨rfl, rfl⟩, ?_, ?_⟩
  · intro cap S k hk
    obtain ⟨j, rfl⟩ : ∃ j, k = j + 1 := ⟨k - 1, by omega⟩
    have hrings : (HierarchicalTimingWheel.new T 0 cap S).rings = [] := by
      simp [HierarchicalTimingWheel.new]
    have hpass : tickPass (HierarchicalTimingWheel.new T 0 cap S) [] = none := by
      simp [tickPass, tickLoop, hrings, tickLoopGo, shouldTickAt]
    simp [HierarchicalTimingWheel.tick, tickAux, hpass]
  · intro w hw due grad
    rw [tickLoop]
    have hmax : max w.rings.length 1 = w.rings.length := by omega
    rw [hmax]
    exact tickLoopGo_isSome w.rings.length w.rings 0 false due grad (by omega)

/-- Witness for C10: a 0-level wheel panics on `tick 1`, and a 2-level
wheel's drain loop never goes out of bounds. -/
theorem C10_witness :
    (HierarchicalTimingWheel.new Nat 0 16 10).tick 1 = none ∧
    (tickLoop (HierarchicalTimingWheel.new Nat 2 16 10).rings ([] : List Nat) []).isSome :=
  ⟨(C10_no_construction_validation Nat).2.1 16 10 1 (by omega),
   (C10_no_construction_validation Nat).2.2 (HierarchicalTimingWheel.new Nat 2 16 10)
     (by decide) [] []⟩

/-! ## Odometer arithmetic -/

theorem succ_mod (p t : Nat) : (t + 1) % p = (t % p + 1) % p :=
  (Nat.mod_add_mod t p 1).symm

theorem succ_div_mod_of_not_dvd {p t : Nat} (hp : 0 < p) (h : ¬ p ∣ (t + 1)) :
    (t + 1) / p = t / p ∧ (t + 1) % p = t % p + 1 := by
  have hd := Nat.succ_div t p
  rw [if_neg h] at hd
  refine ⟨by omega, ?_⟩
  have hm := succ_mod p t
  have hb : t % p < p := Nat.mod_lt _ hp
  by_cases hw : t % p + 1 = p
  · exact absurd (Nat.dvd_of_mod_eq_zero (by rw [hm, hw, Nat.mod_self])) h
  · rw [hm, Nat.mod_eq_of_lt (by omega)]

theorem succ_div_mod_of_dvd {p t : Nat} (hp : 0 < p) (h : p ∣ (t + 1)) :
    (t + 1) / p = t / p + 1 ∧ (t + 1) % p = 0 ∧ t % p = p - 1 := by
  have hd := Nat.succ_div t p
  rw [if_pos h] at hd
  have hm0 : (t + 1) % p = 0 := by
    rcases h with ⟨q, hq⟩; rw [hq]; exact Nat.mul_mod_right p q
  have hm := succ_mod p t
  have hb : t % p < p := Nat.mod_lt _ hp
  have hlast : t % p = p - 1 := by
    by_contra hne
    have hlt : t % p + 1 < p := by omega
    rw [hm, Nat.mod_eq_of_lt hlt] at hm0
    omega
  exact ⟨hd, hm0, hlast⟩

theorem offsetFrom_eq {S c i : Nat} (hc : c < S) (hi : i < S) :
    offsetFrom S c i = if c ≤ i then i - c else i + S - c := by
  unfold offsetFrom
  by_cases h : c ≤ i
  · rw [if_pos h]
    have he : i + S - c = (i - c) + S := by omega
    rw [he, Nat.add_mod_right]
    exact Nat.mod_eq_of_lt (by omega)
  · rw [if_neg h]
    exact Nat.mod_eq_of_lt (by omega)

theorem offsetFrom_lt {S c i : Nat} (hS : 0 < S) : offsetFrom S c i < S :=
  Nat.mod_lt _ hS

theorem offsetFrom_self {S c : Nat} (hc : c < S) : offsetFrom S c c = 0 := by
  rw [offsetFrom_eq hc hc, if_pos (Nat.le_refl c)]
  omega

theorem offsetFrom_pos {S c i : Nat} (hc : c < S) (hi : i < S) (hne : i ≠ c) :
    1 ≤ offsetFrom S c i := by
  rw [offsetFrom_eq hc hi]
  split <;> omega

theorem offsetFrom_inj {S c i1 i2 : Nat} (hc : c < S) (h1 : i1 < S) (h2 : i2 < S)
    (h : offsetFrom S c i1 = offsetFrom S c i2) : i1 = i2 := by
  rw [offsetFrom_eq hc h1, offsetFrom_eq hc h2] at h
  split at h <;> split at h <;> omega

theorem offsetFrom_add {S c q : Nat} (hc : c < S) (hq : q < S) :
    offsetFrom S c ((c + q) % S) = q := by
  by_cases hw : c + q < S
  · rw [Nat.mod_eq_of_lt hw, offsetFrom_eq hc (by omega), if_pos (by omega)]
    omega
  · have hsub : (c + q) % S = c + q - S := by
      rw [Nat.mod_eq_sub_mod (by omega), Nat.mod_eq_of_lt (by omega)]
    rw [hsub, offsetFrom_eq hc (by omega), if_neg (by omega)]
    omega

theorem offsetFrom_succ {S c i : Nat} (hS : 2 ≤ S) (hc : c < S) (hi : i < S)
    (h1 : i ≠ c) (h2 : i ≠ (c + 1) % S) :
    offsetFrom S ((c + 1) % S) i + 1 = offsetFrom S c i := by
  by_cases hw : c + 1 < S
  · rw [Nat.mod_eq_of_lt hw] at h2 ⊢
    rw [offsetFrom_eq (by omega) hi, offsetFrom_eq hc hi]
    split <;> split <;> omega
  · have hc' : c + 1 = S := by omega
    have hz : (c + 1) % S = 0 := by rw [hc']; exact Nat.mod_self S
    rw [hz] at h2 ⊢
    rw [offsetFrom_eq (by omega) hi, offsetFrom_eq hc hi]
    rw [if_pos (Nat.zero_le i), if_neg (by omega)]
    omega

theorem off_rd_unique {p o1 o2 r1 r2 : Nat} (hp : 0 < p) (hr1 : r1 < p) (hr2 : r2 < p)
    (h : o1 * p + r1 = o2 * p + r2) : o1 = o2 ∧ r1 = r2 := by
  have hm : r1 = r2 := by
    have h1 : (o1 * p + r1) % p = r1 := by
      rw [Nat.add_comm, Nat.add_mul_mod_self_right, Nat.mod_eq_of_lt hr1]
    have h2 : (o2 * p + r2) % p = r2 := by
      rw [Nat.add_comm, Nat.add_mul_mod_self_right, Nat.mod_eq_of_lt hr2]
    rw [← h1, ← h2, h]
  refine ⟨?_, hm⟩
  subst hm
  have : o1 * p = o2 * p := by omega
  exact Nat.eq_of_mul_eq_mul_right hp this

theorem pow_mod_lower {S m M t1 : Nat} (hS : 2 ≤ S) (hdvd : S ^ m ∣ t1) :
    min (S ^ M) (S ^ m) ≤ S ^ M - t1 % S ^ M := by
  have hpM : 0 < S ^ M := Nat.pos_pow_of_pos M (by omega)
  have hpm : 0 < S ^ m := Nat.pos_pow_of_pos m (by omega)
  by_cases hM : S ^ M ∣ t1
  · have : t1 % S ^ M = 0 := by
      rcases hM with ⟨q, hq⟩; rw [hq]; exact Nat.mul_mod_right _ q
    rw [this]
    omega
  · have hMm : m < M := by
      by_contra hcon
      push_neg at hcon
      exact hM ((Nat.pow_dvd_pow S hcon).trans hdvd)
    have hd2 : S ^ m ∣ t1 % S ^ M :=
      (Nat.dvd_mod_iff (Nat.pow_dvd_pow S (by omega))).mpr hdvd
    have hne : t1 % S ^ M ≠ 0 := fun hz => hM (Nat.dvd_of_mod_eq_zero hz)
    obtain ⟨q, hq⟩ := hd2
    have hq1 : 1 ≤ q := by
      rcases Nat.eq_zero_or_pos q with h0 | h0
      · subst h0; simp at hq; exact absurd hq hne
      · exact h0
    obtain ⟨Q, hQ⟩ := Nat.pow_dvd_pow S (Nat.le_of_lt hMm)
    have hlt : t1 % S ^ M < S ^ M := Nat.mod_lt _ hpM
    have hqQ : q < Q := by
      have : S ^ m * q < S ^ m * Q := by rw [← hq, ← hQ]; exact hlt
      exact Nat.lt_of_mul_lt_mul_left this
    have hstep : S ^ m * (q + 1) ≤ S ^ m * Q := Nat.mul_le_mul_left _ (by omega)
    rw [← hQ] at hstep
    have : t1 % S ^ M + S ^ m ≤ S ^ M := by
      rw [hq]
      calc S ^ m * q + S ^ m = S ^ m * (q + 1) := by ring
      _ ≤ S ^ M := hstep
    omega

theorem cursorAt_lt {S L t : Nat} (hS : 2 ≤ S) : cursorAt S L t < S :=
  Nat.mod_lt _ (by omega)

theorem cursorAt_succ_of_dvd {S L t : Nat} (hS : 2 ≤ S) (h : S ^ L ∣ (t + 1)) :
    cursorAt S L (t + 1) = (cursorAt S L t + 1) % S := by
  unfold cursorAt
  rw [(succ_div_mod_of_dvd (Nat.pos_pow_of_pos L (by omega)) h).1]
  exact succ_mod S (t / S ^ L)

theorem cursorAt_succ_of_not_dvd {S L t : Nat} (hS : 2 ≤ S) (h : ¬ S ^ L ∣ (t + 1)) :
    cursorAt S L (t + 1) = cursorAt S L t := by
  unfold cursorAt
  rw [(succ_div_mod_of_not_dvd (Nat.pos_pow_of_pos L (by omega)) h).1]

theorem base_succ_of_dvd {p t : Nat} (hp : 0 < p) (h : p ∣ (t + 1)) :
    (t + 1) - (t + 1) % p = (t - t % p) + p := by
  obtain ⟨_, hm0, hlast⟩ := succ_div_mod_of_dvd hp h
  have hple : p ≤ t + 1 := Nat.le_of_dvd (by omega) h
  omega

theorem base_succ_of_not_dvd {p t : Nat} (hp : 0 < p) (h : ¬ p ∣ (t + 1)) :
    (t + 1) - (t + 1) % p = t - t % p := by
  obtain ⟨_, hm⟩ := succ_div_mod_of_not_dvd hp h
  have := Nat.mod_le t p
  omega

/-! ## Deadline arithmetic -/

theorem dlOf_lower {S t L i rd : Nat} (hS : 2 ≤ S)
    (hoff : 1 ≤ offsetFrom S (cursorAt S L t) i) :
    t + (S ^ L - t % S ^ L) ≤ dlOf S t L i rd := by
  unfold dlOf
  have hp : 0 < S ^ L := Nat.pos_pow_of_pos L (by omega)
  have hb : t % S ^ L < S ^ L := Nat.mod_lt _ hp
  have hmul : 1 * S ^ L ≤ offsetFrom S (cursorAt S L t) i * S ^ L :=
    Nat.mul_le_mul_right _ hoff
  have hle := Nat.mod_le t (S ^ L)
  omega

theorem dlOf_succ_of_not_dvd {S t L i rd : Nat} (hS : 2 ≤ S) (h : ¬ S ^ L ∣ (t + 1)) :
    dlOf S (t + 1) L i rd = dlOf S t L i rd := by
  unfold dlOf
  rw [cursorAt_succ_of_not_dvd hS h,
      base_succ_of_not_dvd (Nat.pos_pow_of_pos L (by omega)) h]

theorem dlOf_succ_of_dvd {S t L i rd : Nat} (hS : 2 ≤ S) (h : S ^ L ∣ (t + 1))
    (hi : i < S) (hne1 : i ≠ cursorAt S L t) (hne2 : i ≠ cursorAt S L (t + 1)) :
    dlOf S (t + 1) L i rd = dlOf S t L i rd := by
  have hc : cursorAt S L t < S := cursorAt_lt hS
  have hcs := cursorAt_succ_of_dvd hS h
  rw [hcs] at hne2
  have hoff := offsetFrom_succ hS hc hi hne1 hne2
  unfold dlOf
  rw [hcs, base_succ_of_dvd (Nat.pos_pow_of_pos L (by omega)) h, ← hoff]
  have : (offsetFrom S ((cursorAt S L t + 1) % S) i + 1) * S ^ L =
      offsetFrom S ((cursorAt S L t + 1) % S) i * S ^ L + S ^ L := by ring
  omega

/-- The deadline of the slot the cursor moves onto when ring `L` ticks:
`t + 1 + rd`. -/
theorem dlOf_drained {S t L rd : Nat} (hS : 2 ≤ S) (h : S ^ L ∣ (t + 1)) :
    dlOf S t L ((cursorAt S L t + 1) % S) rd = t + 1 + rd := by
  have hc : cursorAt S L t < S := cursorAt_lt hS
  have hp : 0 < S ^ L := Nat.pos_pow_of_pos L (by omega)
  unfold dlOf
  rw [offsetFrom_add hc (by omega), Nat.one_mul]
  obtain ⟨_, _, hlast⟩ := succ_div_mod_of_dvd hp h
  have hple : S ^ L ≤ t + 1 := Nat.le_of_dvd (by omega) h
  omega

/-! ## List helpers -/

theorem getElem?_lt {α : Type} {l : List α} {i : Nat} {a : α} (h : l[i]? = some a) :
    i < l.length :=
  (List.getElem?_eq_some_iff.mp h).1

theorem concatL_eq_nil {α : Type} :
    ∀ (ls : List (List α)), (∀ l ∈ ls, l = []) → concatL ls = []
  | [], _ => rfl
  | l :: ls, h => by
    rw [concatL_cons, h l (by simp), concatL_eq_nil ls (fun x hx => h x (by simp [hx]))]
    rfl

theorem concatL_map_range_congr {α : Type} (len : Nat) (f g : Nat → List α)
    (h : ∀ i, i < len → f i = g i) :
    concatL ((List.range len).map f) = concatL ((List.range len).map g) := by
  induction len with
  | zero => rfl
  | succ n ih =>
    rw [List.range_succ, List.map_append, List.map_append, concatL_append, concatL_append]
    rw [ih (fun i hi => h i (by omega))]
    simp [h n (by omega)]

theorem concatL_map_range_single {α : Type} :
    ∀ (len : Nat) (i0 : Nat), i0 < len → ∀ (f : Nat → List α),
      (∀ i, i < len → i ≠ i0 → f i = []) →
      concatL ((List.range len).map f) = f i0 := by
  intro len
  induction len with
  | zero => intro i0 h0; omega
  | succ n ih =>
    intro i0 h0 f h
    rw [List.range_succ, List.map_append, concatL_append]
    by_cases hi : i0 = n
    · subst hi
      have hpre : concatL ((List.range i0).map f) = [] := by
        apply concatL_eq_nil
        intro l hl
        rw [List.mem_map] at hl
        obtain ⟨i, hi2, rfl⟩ := hl
        rw [List.mem_range] at hi2
        exact h i (by omega) (by omega)
      rw [hpre]
      simp
    · have hfn : f n = [] := h n (by omega) (fun he => hi he.symm)
      rw [ih i0 (by omega) f (fun i hi2 hne => h i (by omega) hne)]
      simp [hfn]

theorem slotDue_congr {T : Type} {dl : Nat} (S1 t1 L1 i1 S2 t2 L2 i2 : Nat)
    (q : List (Nat × T)) (h : ∀ e ∈ q, dlOf S1 t1 L1 i1 e.1 = dlOf S2 t2 L2 i2 e.1) :
    slotDue S1 t1 L1 i1 dl q = slotDue S2 t2 L2 i2 dl q := by
  unfold slotDue
  congr 1
  apply List.filter_congr'
  intro e he
  rw [h e he]

theorem slotDue_eq_nil {T : Type} {S t L i dl : Nat} {q : List (Nat × T)}
    (h : ∀ e ∈ q, dlOf S t L i e.1 ≠ dl) : slotDue S t L i dl q = [] := by
  unfold slotDue
  have : q.filter (fun e => dlOf S t L i e.1 == dl) = [] := by
    induction q with
    | nil => rfl
    | cons e rest ih =>
      rw [List.filter_cons]
      have hne : (dlOf S t L i e.1 == dl) = false := by
        simp only [beq_eq_false_iff_ne, ne_eq]
        exact h e (by simp)
      rw [hne]
      simp only [Bool.false_eq_true, if_false]
      exact ih (fun e2 he2 => h e2 (by simp [he2]))
  rw [this]
  rfl

theorem slotDue_append {T : Type} (S t L i dl : Nat) (q1 q2 : List (Nat × T)) :
    slotDue S t L i dl (q1 ++ q2) = slotDue S t L i dl q1 ++ slotDue S t L i dl q2 := by
  unfold slotDue
  rw [List.filter_append, List.map_append]

theorem getD_of_getElem? {α : Type} {l : List α} {i : Nat} {a : α} (d : α)
    (h : l[i]? = some a) : l.getD i d = a := by
  rw [List.getD_eq_getElem?_getD, h]
  rfl

theorem getElem?_of_lt_length {α : Type} {l : List α} {i : Nat} (d : α) (h : i < l.length) :
    l[i]? = some (l.getD i d) := by
  rw [List.getD_eq_getElem?_getD, List.getElem?_eq_getElem h]
  rfl

/-! ## Per-ring lemmas -/

theorem ringInv_fields {T : Type} {S t L : Nat} {r : Ring T} (hInv : RingInv S t L r) :
    r.level = L ∧ r.slots.length = S ∧ r.cursor = cursorAt S L t :=
  ⟨hInv.1, hInv.2.1, hInv.2.2.1⟩

theorem entry_dl_lower {T : Type} {S t1 L : Nat} {r : Ring T} (hS : 2 ≤ S)
    (hInv : RingInv S t1 L r) {i : Nat} {q : List (Nat × T)} (hq : r.slots[i]? = some q)
    {rd : Nat} {x : T} (hmem : (rd, x) ∈ q) :
    t1 + (S ^ L - t1 % S ^ L) ≤ dlOf S t1 L i rd := by
  obtain ⟨hlvl, hlen, hcur, hemp, hbound⟩ := hInv
  have hi : i < S := by have := getElem?_lt hq; omega
  have hne : i ≠ cursorAt S L t1 := by
    intro heq
    have hqe : q = [] := by
      have h2 : r.slots.getD r.cursor [] = q := getD_of_getElem? [] (by rw [hcur, ← heq]; exact hq)
      rw [hemp] at h2
      exact h2.symm
    rw [hqe] at hmem
    exact absurd hmem (List.not_mem_nil _)
  exact dlOf_lower hS (offsetFrom_pos (cursorAt_lt hS) hi hne)

theorem ringDue_eq_nil_of_lower {T : Type} {S t1 L dl : Nat} {r : Ring T} (hS : 2 ≤ S)
    (hInv : RingInv S t1 L r) (hdl : dl < t1 + (S ^ L - t1 % S ^ L)) :
    ringDue S t1 dl r = [] := by
  unfold ringDue
  apply concatL_eq_nil
  intro l hl
  rw [List.mem_map] at hl
  obtain ⟨i, hi2, rfl⟩ := hl
  rw [List.mem_range] at hi2
  apply slotDue_eq_nil
  intro e he heq
  obtain ⟨rd, x⟩ := e
  have hq : r.slots[i]? = some (r.slots.getD i []) := getElem?_of_lt_length [] hi2
  have hlow := entry_dl_lower hS hInv hq he
  rw [hInv.1] at heq
  have heq2 : dlOf S t1 L i rd = dl := heq
  omega

theorem ring_notick {T : Type} {S t L : Nat} {r : Ring T} (hS : 2 ≤ S)
    (hInv : RingInv S t L r) (hnd : ¬ S ^ L ∣ (t + 1)) :
    RingInv S (t + 1) L r ∧ ∀ dl, ringDue S (t + 1) dl r = ringDue S t dl r := by
  obtain ⟨hlvl, hlen, hcur, hemp, hbound⟩ := hInv
  refine ⟨⟨hlvl, hlen, ?_, hemp, hbound⟩, ?_⟩
  · rw [cursorAt_succ_of_not_dvd hS hnd]; exact hcur
  · intro dl
    unfold ringDue
    apply concatL_map_range_congr
    intro i _
    apply slotDue_congr
    intro e _
    rw [hlvl]
    exact dlOf_succ_of_not_dvd hS hnd

/-- The effect of `Ring::tick` on a ring at level `L` when `S ^ L`
divides `t + 1` (exactly the case in which the cascade reaches it):
the invariant moves to `t + 1`, the drained entries are in range and
carry deadline `t + 1 + residual`, and `ringDue` loses exactly the
drained slot. -/
theorem ring_tick {T : Type} {S t L : Nat} {r : Ring T} (hS : 2 ≤ S)
    (hInv : RingInv S t L r) (hdvd : S ^ L ∣ (t + 1)) :
    RingInv S (t + 1) L (Ring.tick r).1 ∧
    (∀ e ∈ (Ring.tick r).2, e.1 < S ^ L) ∧
    (∀ dl, ringDue S t dl r =
      ringDue S (t + 1) dl (Ring.tick r).1 ++
        ((Ring.tick r).2.filter fun e => t + 1 + e.1 == dl).map Prod.snd) := by
  obtain ⟨hlvl, hlen, hcur, hemp, hbound⟩ := hInv
  have hp : 0 < S ^ L := Nat.pos_pow_of_pos L (by omega)
  have hcS : cursorAt S L t < S := cursorAt_lt hS
  have hc' : cursorAt S L (t + 1) = (cursorAt S L t + 1) % S := cursorAt_succ_of_dvd hS hdvd
  have hc'S : (cursorAt S L t + 1) % S < S := Nat.mod_lt _ (by omega)
  have hoffc' : offsetFrom S (cursorAt S L t) ((cursorAt S L t + 1) % S) = 1 :=
    offsetFrom_add hcS (by omega)
  have hne_cc' : (cursorAt S L t + 1) % S ≠ cursorAt S L t := by
    intro heq
    rw [heq, offsetFrom_self hcS] at hoffc'
    omega
  have htick1 : (Ring.tick r).1 = { r with
      cursor := (cursorAt S L t + 1) % S
      slots := r.slots.set ((cursorAt S L t + 1) % S) [] } := by
    simp only [Ring.tick, hcur, hlen]
  have htick2 : (Ring.tick r).2 = r.slots.getD ((cursorAt S L t + 1) % S) [] := by
    simp only [Ring.tick, hcur, hlen]
  have hq' : r.slots[(cursorAt S L t + 1) % S]? =
      some (r.slots.getD ((cursorAt S L t + 1) % S) []) :=
    getElem?_of_lt_length [] (by omega)
  have houtbound : ∀ e ∈ (Ring.tick r).2, e.1 < S ^ L := by
    intro e he
    rw [htick2] at he
    exact hbound _ _ hq' e he
  have hm0 : (t + 1) % S ^ L = 0 := (succ_div_mod_of_dvd hp hdvd).2.1
  have hlast : t % S ^ L = S ^ L - 1 := (succ_div_mod_of_dvd hp hdvd).2.2
  have hple : S ^ L ≤ t + 1 := Nat.le_of_dvd (by omega) hdvd
  have hInv' : RingInv S (t + 1) L (Ring.tick r).1 := by
    rw [htick1]
    refine ⟨hlvl, by simp [List.length_set, hlen], by rw [hc'], ?_, ?_⟩
    · show (r.slots.set ((cursorAt S L t + 1) % S) []).getD ((cursorAt S L t + 1) % S) [] = []
      rw [List.getD_eq_getElem?_getD, List.getElem?_set_eq (by omega)]
      rfl
    · intro i q hq e he
      by_cases hi : i = (cursorAt S L t + 1) % S
      · subst hi
        rw [List.getElem?_set_eq (by omega)] at hq
        cases Option.some.inj hq
        exact absurd he (List.not_mem_nil _)
      · rw [List.getElem?_set_ne (fun h => hi h.symm)] at hq
        exact hbound i q hq e he
  refine ⟨hInv', houtbound, ?_⟩
  intro dl
  by_cases hwin : t + 1 ≤ dl ∧ dl < t + 1 + S ^ L
  · have hpost : ringDue S (t + 1) dl (Ring.tick r).1 = [] := by
      apply ringDue_eq_nil_of_lower hS hInv'
      omega
    have hpre : ringDue S t dl r =
        slotDue S t L ((cursorAt S L t + 1) % S) dl
          (r.slots.getD ((cursorAt S L t + 1) % S) []) := by
      unfold ringDue
      rw [hlvl, hlen]
      apply concatL_map_range_single S ((cursorAt S L t + 1) % S) (by omega)
      intro i hi hnei
      by_cases hic : i = cursorAt S L t
      · subst hic
        have hnil : r.slots.getD (cursorAt S L t) [] = [] := by rw [← hcur]; exact hemp
        rw [hnil]
        rfl
      · apply slotDue_eq_nil
        intro e he heq
        have hqi : r.slots[i]? = some (r.slots.getD i []) :=
          getElem?_of_lt_length [] (by omega)
        have hrd : e.1 < S ^ L := hbound i _ hqi e he
        have hoff1 : 1 ≤ offsetFrom S (cursorAt S L t) i := offsetFrom_pos hcS (by omega) hic
        have hoffne : offsetFrom S (cursorAt S L t) i ≠ 1 := by
          intro h1
          exact hnei (offsetFrom_inj hcS (by omega) hc'S (by rw [h1, hoffc']))
        have hoff2 : 2 ≤ offsetFrom S (cursorAt S L t) i := by omega
        unfold dlOf at heq
        have hmul : 2 * S ^ L ≤ offsetFrom S (cursorAt S L t) i * S ^ L :=
          Nat.mul_le_mul_right _ hoff2
        omega
    have hfilter : slotDue S t L ((cursorAt S L t + 1) % S) dl
        (r.slots.getD ((cursorAt S L t + 1) % S) []) =
        ((Ring.tick r).2.filter fun e => t + 1 + e.1 == dl).map Prod.snd := by
      rw [htick2]
      unfold slotDue
      congr 1
      apply List.filter_congr'
      intro e _
      have hdd : dlOf S t L ((cursorAt S L t + 1) % S) e.1 = t + 1 + e.1 :=
        dlOf_drained hS hdvd
      rw [hdd]
    rw [hpost, hpre, hfilter, List.nil_append]
  · have hfilter : ((Ring.tick r).2.filter fun e => t + 1 + e.1 == dl) = [] := by
      apply List.filter_eq_nil_iff.mpr
      intro e he
      have hrd := houtbound e he
      simp only [beq_iff_eq]
      omega
    rw [hfilter]
    simp only [List.map_nil, List.append_nil]
    rw [htick1]
    unfold ringDue
    simp only [List.length_set]
    rw [hlvl, hlen]
    apply concatL_map_range_congr
    intro i hi
    by_cases hic' : i = (cursorAt S L t + 1) % S
    · subst hic'
      have hpost0 : (r.slots.set ((cursorAt S L t + 1) % S) []).getD
          ((cursorAt S L t + 1) % S) [] = [] := by
        rw [List.getD_eq_getElem?_getD, List.getElem?_set_eq (by omega)]
        rfl
      rw [hpost0]
      rw [show slotDue S (t + 1) L ((cursorAt S L t + 1) % S) dl ([] : List (Nat × T)) = []
            from rfl]
      apply slotDue_eq_nil
      intro e he heq
      have hqi : r.slots[(cursorAt S L t + 1) % S]? =
          some (r.slots.getD ((cursorAt S L t + 1) % S) []) :=
        getElem?_of_lt_length [] (by omega)
      have hrd : e.1 < S ^ L := hbound _ _ hqi e he
      rw [dlOf_drained hS hdvd] at heq
      omega
    · have hq2 : (r.slots.set ((cursorAt S L t + 1) % S) []).getD i [] = r.slots.getD i [] := by
        rw [List.getD_eq_getElem?_getD, List.getD_eq_getElem?_getD,
            List.getElem?_set_ne (fun h => hic' h.symm)]
      rw [hq2]
      by_cases hic : i = cursorAt S L t
      · subst hic
        have hnil : r.slots.getD (cursorAt S L t) [] = [] := by rw [← hcur]; exact hemp
        rw [hnil]
        rfl
      · apply slotDue_congr
        intro e _
        exact (dlOf_succ_of_dvd hS hdvd (by omega) hic (by rw [hc']; exact hic')).symm

theorem concatL_map_range_append_at {α : Type} (len i0 : Nat) (h0 : i0 < len)
    (f g : Nat → List α) (extra : List α)
    (hothers : ∀ i, i < len → i ≠ i0 → f i = g i) (hat : f i0 = g i0 ++ extra)
    (hvanish : extra ≠ [] → ∀ i, i < len → i ≠ i0 → g i = []) :
    concatL ((List.range len).map f) = concatL ((List.range len).map g) ++ extra := by
  by_cases hex : extra = []
  · subst hex
    rw [List.append_nil] at hat ⊢
    exact concatL_map_range_congr len f g
      (fun i hi => if h : i = i0 then by rw [h, hat] else hothers i hi h)
  · have hg := hvanish hex
    have hf : ∀ i, i < len → i ≠ i0 → f i = [] := fun i hi hne => by
      rw [hothers i hi hne]; exact hg i hi hne
    rw [concatL_map_range_single len i0 h0 f hf, concatL_map_range_single len i0 h0 g hg]
    exact hat

/-- The effect of `Ring::place` on a ring at level `L` holding the
invariant, for a delay `d` in the ring's band `[S ^ L, S ^ (L + 1))`:
the returned slot, the preserved invariant, and the new entry appended
to the ring's due list at deadline `(t - t % S ^ L) + d`. -/
theorem ring_place_effect {T : Type} {S t L : Nat} {r : Ring T} (hS : 2 ≤ S)
    (hInv : RingInv S t L r) {d : Nat} (x : T) (hd1 : S ^ L ≤ d) (hd2 : d < S ^ (L + 1)) :
    (r.place d x).2 = (cursorAt S L t + d / S ^ L) % S ∧
    RingInv S t L (r.place d x).1 ∧
    (∀ dl, ringDue S t dl (r.place d x).1 =
      ringDue S t dl r ++ (if dl = (t - t % S ^ L) + d then [x] else [])) := by
  obtain ⟨hlvl, hlen, hcur, hemp, hbound⟩ := hInv
  have hp : 0 < S ^ L := Nat.pos_pow_of_pos L (by omega)
  have hspan : r.span = S ^ L := by simp [Ring.span, hlvl, hlen]
  have hq1 : 1 ≤ d / S ^ L := (Nat.one_le_div_iff hp).mpr hd1
  have hqS : d / S ^ L < S := by
    rw [Nat.div_lt_iff_lt_mul hp]
    calc d < S ^ (L + 1) := hd2
    _ = S * S ^ L := by rw [Nat.pow_succ]; ring
  have hcS : cursorAt S L t < S := cursorAt_lt hS
  have hrdlt : d % S ^ L < S ^ L := Nat.mod_lt _ hp
  have hplace2 : (r.place d x).2 = (cursorAt S L t + d / S ^ L) % S := by
    simp only [Ring.place, hspan, hcur, hlen]
  have hsS : (cursorAt S L t + d / S ^ L) % S < S := Nat.mod_lt _ (by omega)
  have hoffs : offsetFrom S (cursorAt S L t) ((cursorAt S L t + d / S ^ L) % S) = d / S ^ L :=
    offsetFrom_add hcS hqS
  have hsc : (cursorAt S L t + d / S ^ L) % S ≠ cursorAt S L t := by
    intro heq
    rw [heq, offsetFrom_self hcS] at hoffs
    omega
  have hplace1 : (r.place d x).1 = { r with slots := r.slots.set ((cursorAt S L t + d / S ^ L) % S) ((r.slots.getD ((cursorAt S L t + d / S ^ L) % S) []) ++ [(d % S ^ L, x)]) } := by
    simp only [Ring.place, hspan, hcur, hlen]
  have hco : d / S ^ L * S ^ L + d % S ^ L = d := by
    have h1 := Nat.div_add_mod d (S ^ L)
    have h2 : d / S ^ L * S ^ L = S ^ L * (d / S ^ L) := Nat.mul_comm _ _
    omega
  have hdlx : dlOf S t L ((cursorAt S L t + d / S ^ L) % S) (d % S ^ L) =
      (t - t % S ^ L) + d := by
    unfold dlOf
    rw [hoffs]
    omega
  have hInvP : RingInv S t L (r.place d x).1 := by
    rw [hplace1]
    refine ⟨hlvl, by simp [List.length_set, hlen], hcur, ?_, ?_⟩
    · show (r.slots.set _ _).getD r.cursor [] = []
      rw [List.getD_eq_getElem?_getD,
          List.getElem?_set_ne (fun h => hsc (h.trans hcur))]
      rw [← List.getD_eq_getElem?_getD]
      exact hemp
    · intro i q hq e he
      by_cases hi : i = (cursorAt S L t + d / S ^ L) % S
      · subst hi
        rw [List.getElem?_set_eq (by omega)] at hq
        cases Option.some.inj hq
        rcases List.mem_append.mp he with hold | hnew
        · exact hbound _ _ (getElem?_of_lt_length [] (by omega)) e hold
        · rcases List.mem_singleton.mp hnew with rfl
          exact hrdlt
      · rw [List.getElem?_set_ne (fun h => hi h.symm)] at hq
        exact hbound i q hq e he
  refine ⟨hplace2, hInvP, ?_⟩
  intro dl
  rw [hplace1]
  unfold ringDue
  simp only [List.length_set]
  rw [hlvl, hlen]
  apply concatL_map_range_append_at S ((cursorAt S L t + d / S ^ L) % S) hsS _ _ _ ?hothers
    ?hat ?hvan
  case hothers =>
    intro i hi hne
    have hq2 : (r.slots.set ((cursorAt S L t + d / S ^ L) % S)
        ((r.slots.getD ((cursorAt S L t + d / S ^ L) % S) []) ++ [(d % S ^ L, x)])).getD i [] =
        r.slots.getD i [] := by
      rw [List.getD_eq_getElem?_getD, List.getD_eq_getElem?_getD,
          List.getElem?_set_ne (fun h => hne h.symm)]
      exact (List.getD_eq_getElem?_getD _ _ _).symm
    rw [hq2]
  case hat =>
    have hq3 : (r.slots.set ((cursorAt S L t + d / S ^ L) % S)
        ((r.slots.getD ((cursorAt S L t + d / S ^ L) % S) []) ++ [(d % S ^ L, x)])).getD
        ((cursorAt S L t + d / S ^ L) % S) [] =
        (r.slots.getD ((cursorAt S L t + d / S ^ L) % S) []) ++ [(d % S ^ L, x)] := by
      rw [List.getD_eq_getElem?_getD, List.getElem?_set_eq (by omega)]
      rfl
    rw [hq3, slotDue_append]
    congr 1
    unfold slotDue
    by_cases hdl : dl = (t - t % S ^ L) + d
    · rw [if_pos hdl]
      have : (dlOf S t L ((cursorAt S L t + d / S ^ L) % S) (d % S ^ L) == dl) = true := by
        simp only [beq_iff_eq]
        rw [hdlx, hdl]
      simp [List.filter_cons, this]
    · rw [if_neg hdl]
      have : (dlOf S t L ((cursorAt S L t + d / S ^ L) % S) (d % S ^ L) == dl) = false := by
        simp only [beq_eq_false_iff_ne, ne_eq]
        rw [hdlx]
        exact fun h => hdl h.symm
      simp [List.filter_cons, this]
  case hvan =>
    intro hex i hi hne
    have hdl : dl = (t - t % S ^ L) + d := by
      by_contra hcon
      rw [if_neg hcon] at hex
      exact hex rfl
    apply slotDue_eq_nil
    intro e he heq
    have hqi : r.slots[i]? = some (r.slots.getD i []) := getElem?_of_lt_length [] (by omega)
    have hrd : e.1 < S ^ L := hbound i _ hqi e he
    unfold dlOf at heq
    rw [hdl] at heq
    have heq2 : offsetFrom S (cursorAt S L t) i * S ^ L + e.1 =
        d / S ^ L * S ^ L + d % S ^ L := by omega
    obtain ⟨ho, _⟩ := off_rd_unique hp hrd hrdlt heq2
    exact hne (offsetFrom_inj hcS (by omega) hsS (by rw [ho, hoffs]))

/-! ## Wheel-level invariant lemmas -/

theorem wheelDue_eq_split {T : Type} (S t dl k : Nat) (w : HierarchicalTimingWheel T) :
    wheelDue S t dl w = wheelDueUpTo S t dl k w ++ wheelDueFrom S t dl k w := by
  unfold wheelDue wheelDueUpTo wheelDueFrom
  rw [← concatL_append, ← List.map_append, List.take_append_drop]

theorem inv_shape {T : Type} {S n t : Nat} {w : HierarchicalTimingWheel T}
    (hInv : Inv S n t w) : WheelShape S n w :=
  ⟨hInv.1, fun L r hr => ⟨(hInv.2 L r hr).1, (hInv.2 L r hr).2.1⟩⟩

theorem new_rings_getElem {T : Type} (n cap S L : Nat) (hL : L < n) :
    (HierarchicalTimingWheel.new T n cap S).rings[L]? = some (Ring.new T L cap S) := by
  simp [HierarchicalTimingWheel.new, List.getElem?_map, List.getElem?_range hL]

theorem inv_new {T : Type} (S n cap : Nat) (hS : 2 ≤ S) :
    Inv S n 0 (HierarchicalTimingWheel.new T n cap S) := by
  constructor
  · simp [HierarchicalTimingWheel.new]
  · intro L r hr
    have hL : L < n := by
      have := getElem?_lt hr
      simpa [HierarchicalTimingWheel.new] using this
    rw [new_rings_getElem n cap S L hL] at hr
    cases Option.some.inj hr
    refine ⟨rfl, by simp [Ring.new], ?_, ?_, ?_⟩
    · show 0 = cursorAt S L 0
      simp [cursorAt, Nat.zero_div, Nat.zero_mod]
    · show (List.replicate S ([] : List (Nat × T))).getD 0 [] = []
      rw [List.getD_eq_getElem?_getD]
      cases h : (List.replicate S ([] : List (Nat × T)))[0]? with
      | none => rfl
      | some q =>
        have := List.getElem?_mem h
        rw [List.eq_of_mem_replicate this]
        rfl
    · intro i q hq e he
      have := List.getElem?_mem hq
      rw [List.eq_of_mem_replicate this] at he
      exact absurd he (List.not_mem_nil _)

theorem ringDue_new {T : Type} (S t dl L cap S2 : Nat) :
    ringDue S t dl (Ring.new T L cap S2) = [] := by
  unfold ringDue
  apply concatL_eq_nil
  intro l hl
  rw [List.mem_map] at hl
  obtain ⟨i, hi2, rfl⟩ := hl
  show slotDue S t (Ring.new T L cap S2).level i dl ((Ring.new T L cap S2).slots.getD i []) = []
  have hq : (Ring.new T L cap S2).slots.getD i [] = [] := by
    show (List.replicate S2 ([] : List (Nat × T))).getD i [] = []
    rw [List.getD_eq_getElem?_getD]
    cases h : (List.replicate S2 ([] : List (Nat × T)))[i]? with
    | none => rfl
    | some q =>
      have := List.getElem?_mem h
      rw [List.eq_of_mem_replicate this]
      rfl
  rw [hq]
  rfl

theorem wheelDue_new {T : Type} (S t dl n cap S2 : Nat) :
    wheelDue S t dl (HierarchicalTimingWheel.new T n cap S2) = [] := by
  unfold wheelDue
  apply concatL_eq_nil
  intro l hl
  rw [List.mem_map] at hl
  obtain ⟨r, hr, rfl⟩ := hl
  simp only [HierarchicalTimingWheel.new, List.mem_map] at hr
  obtain ⟨L, _, rfl⟩ := hr
  exact ringDue_new S t dl L cap S2

/-- The full effect of an accepted `schedule` on an invariant-holding
wheel: the returned level and slot, preservation of the invariant, and
the due lists: levels up to and including the placement level gain the
payload at the back (at its deadline), strictly higher levels are
untouched. -/
theorem schedule_effect {T : Type} {S n t : Nat} {w : HierarchicalTimingWheel T}
    (hInv : Inv S n t w) (hS : 2 ≤ S) {d : Nat} (x : T) (hd1 : 1 ≤ d) (hlt : d < S ^ n) :
    (w.schedule d x).2 =
      .ok (Nat.log S d, (cursorAt S (Nat.log S d) t + d / S ^ Nat.log S d) % S) ∧
    Inv S n t (w.schedule d x).1 ∧
    (∀ dl, wheelDueUpTo S t dl (Nat.log S d + 1) (w.schedule d x).1 =
      wheelDueUpTo S t dl (Nat.log S d + 1) w ++
        (if dl = (t - t % S ^ Nat.log S d) + d then [x] else [])) ∧
    (∀ dl, wheelDueFrom S t dl (Nat.log S d + 1) (w.schedule d x).1 =
      wheelDueFrom S t dl (Nat.log S d + 1) w) := by
  have hnd : normalizeDelay d = d := normalizeDelay_of_pos hd1
  obtain ⟨r, hr, heq⟩ := schedule_ok_of_lt (inv_shape hInv) hS x (by rw [hnd]; exact hlt)
  rw [hnd] at hr heq
  have hL : Nat.log S d < n := by
    have hlen := hInv.1
    have := getElem?_lt hr
    omega
  have hRInv : RingInv S t (Nat.log S d) r := hInv.2 _ r hr
  have hpl := ring_place_effect hS hRInv x (Nat.pow_log_le_self S (by omega))
    (Nat.lt_pow_succ_log_self (by omega) d)
  obtain ⟨hpl2, hplInv, hplDue⟩ := hpl
  have hres2 : (w.schedule d x).2 =
      .ok (Nat.log S d, (cursorAt S (Nat.log S d) t + d / S ^ Nat.log S d) % S) := by
    rw [heq, hpl2]
  have hrings : (w.schedule d x).1.rings = w.rings.set (Nat.log S d) (r.place d x).1 := by
    rw [heq]
  refine ⟨hres2, ?_, ?_, ?_⟩
  · constructor
    · rw [hrings, List.length_set]
      exact hInv.1
    · intro M r2 hr2
      rw [hrings] at hr2
      by_cases hM : M = Nat.log S d
      · subst hM
        rw [List.getElem?_set_self (by have := getElem?_lt hr; omega)] at hr2
        cases Option.some.inj hr2
        exact hplInv
      · rw [List.getElem?_set_ne (fun h => hM h.symm)] at hr2
        exact hInv.2 M r2 hr2
  · intro dl
    unfold wheelDueUpTo
    rw [hrings]
    have htake : (w.rings.set (Nat.log S d) (r.place d x).1).take (Nat.log S d + 1) =
        w.rings.take (Nat.log S d) ++ [(r.place d x).1] := by
      have h1 : (w.rings.set (Nat.log S d) (r.place d x).1).take (Nat.log S d + 1) =
          ((w.rings.set (Nat.log S d) (r.place d x).1).take (Nat.log S d)) ++
            ((w.rings.set (Nat.log S d) (r.place d x).1)[Nat.log S d]?).toList :=
        List.take_succ
      rw [h1, List.getElem?_set_self (by have := getElem?_lt hr; omega)]
      congr 1
      · apply List.ext_getElem?
        intro j
        by_cases hj : j < Nat.log S d
        · rw [List.getElem?_take_of_lt hj, List.getElem?_take_of_lt hj,
              List.getElem?_set_ne (by omega)]
        · rw [List.getElem?_take_eq_none (by omega), List.getElem?_take_eq_none (by omega)]
    have htake2 : w.rings.take (Nat.log S d + 1) = w.rings.take (Nat.log S d) ++ [r] := by
      rw [List.take_succ, hr]
      rfl
    rw [htake, htake2, List.map_append, List.map_append, concatL_append, concatL_append]
    simp only [List.map_cons, List.map_nil, concatL_cons, concatL_nil, List.append_nil]
    rw [hplDue dl, List.append_assoc]
  · intro dl
    unfold wheelDueFrom
    rw [hrings, List.drop_set_of_lt _ _ (by omega)]

/-! ## The drain loop as a cascade chain -/

theorem tickLoopGo_false {T : Type} :
    ∀ (k : Nat) (rings : List (Ring T)) (i : Nat) (due : List T) (grad : List (Nat × T)),
      1 ≤ i → tickLoopGo k rings i false due grad = some (rings, due, grad) := by
  intro k
  induction k with
  | zero => intros; rfl
  | succ k ih =>
    intro rings i due grad hi
    have hst : shouldTickAt rings i false = some false := by
      unfold shouldTickAt
      rw [if_neg (by omega : ¬ i = 0)]
      rfl
    simp only [tickLoopGo]
    rw [hst]
    exact ih rings (i + 1) due grad (by omega)

theorem tickLoopGo_chain {T : Type} :
    ∀ (rest : List (Ring T)) (pre : List (Ring T)) (due : List T) (grad : List (Nat × T))
      (rl : Ring T), pre ≠ [] → pre[pre.length - 1]? = some rl →
      tickLoopGo rest.length (pre ++ rest) pre.length true due grad =
        some (if rl.cursor = 0 then
                (pre ++ (chainDrain rest).1, due, grad ++ (chainDrain rest).2)
              else (pre ++ rest, due, grad)) := by
  intro rest
  induction rest with
  | nil =>
    intro pre due grad rl hne hl
    simp only [List.length_nil, tickLoopGo, List.append_nil, chainDrain]
    by_cases hc : rl.cursor = 0 <;> simp [hc]
  | cons r rest ih =>
    intro pre due grad rl hne hl
    have hi0 : pre.length ≠ 0 := by
      cases pre
      · exact absurd rfl hne
      · simp
    have hpl : (pre ++ r :: rest)[pre.length - 1]? = some rl := by
      rw [List.getElem?_append_left (by omega)]
      exact hl
    have hst : shouldTickAt (pre ++ r :: rest) pre.length true =
        some (decide (rl.cursor = 0)) := by
      unfold shouldTickAt
      rw [if_neg hi0, if_pos rfl, hpl]
    have hget : (pre ++ r :: rest)[pre.length]? = some r := by
      rw [List.getElem?_append_right (Nat.le_refl _), Nat.sub_self]
      simp
    show tickLoopGo (rest.length + 1) (pre ++ r :: rest) pre.length true due grad = _
    by_cases hc : rl.cursor = 0
    · have hst' : shouldTickAt (pre ++ r :: rest) pre.length true = some true := by
        rw [hst, decide_eq_true hc]
      simp only [tickLoopGo]
      rw [hst']
      simp only [if_true]
      rw [hget]
      simp only [if_neg hi0]
      have hset : (pre ++ r :: rest).set pre.length (Ring.tick r).1 =
          (pre ++ [(Ring.tick r).1]) ++ rest := by
        rw [List.set_append_right _ _ (Nat.le_refl _), Nat.sub_self]
        simp
      rw [hset]
      have hrec := ih (pre ++ [(Ring.tick r).1]) due (grad ++ (Ring.tick r).2)
        (Ring.tick r).1 (by simp) (by simp)
      rw [show (pre ++ [(Ring.tick r).1]).length = pre.length + 1 by simp] at hrec
      rw [hrec, if_pos hc]
      show _ = some (pre ++ (chainDrain (r :: rest)).1, due, grad ++ (chainDrain (r :: rest)).2)
      by_cases hc2 : (Ring.tick r).1.cursor = 0
      · rw [if_pos hc2]
        simp only [chainDrain, if_pos hc2]
        simp [List.append_assoc]
      · rw [if_neg hc2]
        simp only [chainDrain, if_neg hc2]
        simp [List.append_assoc]
    · have hst' : shouldTickAt (pre ++ r :: rest) pre.length true = some false := by
        rw [hst, decide_eq_false hc]
      simp only [tickLoopGo]
      rw [hst']
      simp only [Bool.false_eq_true, if_false]
      rw [tickLoopGo_false rest.length (pre ++ r :: rest) (pre.length + 1) due grad (by omega)]
      rw [if_neg hc]

theorem tickLoop_cons {T : Type} (r0 : Ring T) (rest : List (Ring T)) (due : List T)
    (grad : List (Nat × T)) :
    tickLoop (r0 :: rest) due grad =
      some (if (Ring.tick r0).1.cursor = 0 then
              ((Ring.tick r0).1 :: (chainDrain rest).1,
               due ++ (Ring.tick r0).2.map Prod.snd, grad ++ (chainDrain rest).2)
            else ((Ring.tick r0).1 :: rest, due ++ (Ring.tick r0).2.map Prod.snd, grad)) := by
  unfold tickLoop
  rw [show max (r0 :: rest).length 1 = rest.length + 1 by simp]
  have hst : shouldTickAt (r0 :: rest) 0 false = some true := by
    unfold shouldTickAt
    rw [if_pos rfl]
  simp only [tickLoopGo]
  rw [hst]
  simp only [if_true, List.getElem?_cons_zero, Nat.zero_add]
  rw [show (r0 :: rest).set 0 (Ring.tick r0).1 = [(Ring.tick r0).1] ++ rest from rfl]
  have hrec := tickLoopGo_chain rest [(Ring.tick r0).1]
    (due ++ (Ring.tick r0).2.map Prod.snd) grad (Ring.tick r0).1 (by simp) (by simp)
  rw [show ([(Ring.tick r0).1] : List (Ring T)).length = 1 from rfl] at hrec
  rw [hrec]
  by_cases hc : (Ring.tick r0).1.cursor = 0 <;> simp [hc]

theorem cursor_zero_iff {S L t : Nat} (hS : 2 ≤ S) (h : S ^ L ∣ (t + 1)) :
    cursorAt S L (t + 1) = 0 ↔ S ^ (L + 1) ∣ (t + 1) := by
  have hp : 0 < S ^ L := Nat.pos_pow_of_pos L (by omega)
  obtain ⟨q, hq⟩ := h
  have hdiv : (t + 1) / S ^ L = q := by
    rw [hq]
    exact Nat.mul_div_cancel_left q hp
  unfold cursorAt
  rw [hdiv, hq, Nat.pow_succ]
  constructor
  · intro h0
    exact Nat.mul_dvd_mul_left (S ^ L) (Nat.dvd_of_mod_eq_zero h0)
  · intro hd
    have : S ∣ q := by
      rcases hd with ⟨u, hu⟩
      have : q = S * u := by
        have hne : S ^ L ≠ 0 := by omega
        have := hu
        rw [Nat.mul_assoc] at this
        exact Nat.eq_of_mul_eq_mul_left hp this
      exact ⟨u, this⟩
    rcases this with ⟨u, hu⟩
    rw [hu]
    exact Nat.mul_mod_right S u

theorem not_dvd_pow_higher {S a b x : Nat} (h : ¬ S ^ a ∣ x) (hab : a ≤ b) : ¬ S ^ b ∣ x :=
  fun hd => h ((Nat.pow_dvd_pow S hab).trans hd)

theorem concat_ringDue_vanish {T : Type} {S t1 m M0 dl : Nat} (hS : 2 ≤ S)
    (hdvd : S ^ m ∣ t1) (hm : m < M0) (hdl : dl < t1 + S ^ m) :
    ∀ (ws : List (Ring T)), (∀ (k : Nat) (r : Ring T), ws[k]? = some r →
      RingInv S t1 (M0 + k) r) →
    concatL (ws.map (ringDue S t1 dl)) = [] := by
  intro ws hws
  apply concatL_eq_nil
  intro l hl
  rw [List.mem_map] at hl
  obtain ⟨r, hr, rfl⟩ := hl
  obtain ⟨k, hk⟩ := List.mem_iff_getElem?.mp hr
  have hInv := hws k r hk
  apply ringDue_eq_nil_of_lower hS hInv
  have hlow := pow_mod_lower (M := M0 + k) hS hdvd
  have hmin : S ^ m ≤ min (S ^ (M0 + k)) (S ^ m) := by
    have : S ^ m ≤ S ^ (M0 + k) := Nat.pow_le_pow_right (by omega) (by omega)
    omega
  omega

theorem append_comm_of_imp {α : Type} (xs ys : List α) (h : xs ≠ [] → ys = []) :
    xs ++ ys = ys ++ xs := by
  by_cases hx : xs = []
  · subst hx; simp
  · rw [h hx]; simp

/-- The effect of the cascade chain on the rings above level 0: the
invariant advances to `t + 1`, every drained residual is bounded by the
span of the (ticked) ring it came from, and the combined due lists lose
exactly the drained entries. -/
theorem chainDrain_effect {T : Type} {S t : Nat} (hS : 2 ≤ S) :
    ∀ (rs : List (Ring T)) (L0 : Nat), 1 ≤ L0 → S ^ L0 ∣ (t + 1) →
      (∀ (k : Nat) (r : Ring T), rs[k]? = some r → RingInv S t (L0 + k) r) →
      (∀ (k : Nat) (r : Ring T), (chainDrain rs).1[k]? = some r →
        RingInv S (t + 1) (L0 + k) r) ∧
      (chainDrain rs).1.length = rs.length ∧
      (∀ e ∈ (chainDrain rs).2, ∃ M, L0 ≤ M ∧ M < L0 + rs.length ∧
        S ^ M ∣ (t + 1) ∧ e.1 < S ^ M) ∧
      (∀ dl, concatL (rs.map (ringDue S t dl)) =
        concatL ((chainDrain rs).1.map (ringDue S (t + 1) dl)) ++
          ((chainDrain rs).2.filter fun e => t + 1 + e.1 == dl).map Prod.snd) := by
  intro rs
  induction rs with
  | nil =>
    intro L0 _ _ _
    refine ⟨fun k r hk => by simp [chainDrain] at hk, by simp [chainDrain], ?_, ?_⟩
    · intro e he
      simp [chainDrain] at he
    · intro dl
      simp [chainDrain]
  | cons r rs' ih =>
    intro L0 hL0 hdvd hrs
    have hInv0 : RingInv S t L0 r := by
      have := hrs 0 r (by simp)
      simpa using this
    obtain ⟨hInv', houtb, hdleq⟩ := ring_tick hS hInv0 hdvd
    have hcw : (Ring.tick r).1.cursor = cursorAt S L0 (t + 1) := hInv'.2.2.1
    by_cases hc2 : (Ring.tick r).1.cursor = 0
    · -- the chain continues into rs'
      have hdvd' : S ^ (L0 + 1) ∣ (t + 1) := by
        rw [hcw] at hc2
        exact (cursor_zero_iff hS hdvd).mp hc2
      have hrs' : ∀ (k : Nat) (r2 : Ring T), rs'[k]? = some r2 →
          RingInv S t (L0 + 1 + k) r2 := by
        intro k r2 hk
        have := hrs (k + 1) r2 (by simpa using hk)
        rwa [show L0 + (k + 1) = L0 + 1 + k by omega] at this
      obtain ⟨iha, ihb, ihc, ihd⟩ := ih (L0 + 1) (by omega) hdvd' hrs'
      have hcd : chainDrain (r :: rs') =
          ((Ring.tick r).1 :: (chainDrain rs').1, (Ring.tick r).2 ++ (chainDrain rs').2) := by
        simp only [chainDrain, if_pos hc2]
      rw [hcd]
      refine ⟨?_, by simp [ihb], ?_, ?_⟩
      · intro k r2 hk
        cases k with
        | zero =>
          simp only [List.getElem?_cons_zero] at hk
          cases Option.some.inj hk
          simpa using hInv'
        | succ k =>
          simp only [List.getElem?_cons_succ] at hk
          have := iha k r2 hk
          rwa [show L0 + 1 + k = L0 + (k + 1) by omega] at this
      · intro e he
        rcases List.mem_append.mp he with h1 | h2
        · exact ⟨L0, Nat.le_refl _, by simp, hdvd, houtb e h1⟩
        · obtain ⟨M, hM1, hM2, hM3, hM4⟩ := ihc e h2
          exact ⟨M, by omega, by simp; omega, hM3, hM4⟩
      · intro dl
        simp only [List.map_cons, concatL_cons]
        rw [hdleq dl, ihd dl, List.filter_append, List.map_append]
        have hcomm : (((Ring.tick r).2.filter fun e => t + 1 + e.1 == dl).map Prod.snd) ++
            concatL ((chainDrain rs').1.map (ringDue S (t + 1) dl)) =
            concatL ((chainDrain rs').1.map (ringDue S (t + 1) dl)) ++
            (((Ring.tick r).2.filter fun e => t + 1 + e.1 == dl).map Prod.snd) := by
          apply append_comm_of_imp
          intro hne
          have hdl : dl < t + 1 + S ^ L0 := by
            by_contra hcon
            push_neg at hcon
            apply hne
            simp only [List.map_eq_nil_iff]
            apply List.filter_eq_nil_iff.mpr
            intro e he
            have := houtb e he
            simp only [beq_iff_eq]
            omega
          apply concat_ringDue_vanish hS hdvd (by omega : L0 < L0 + 1) hdl
          intro k r2 hk
          have := iha k r2 hk
          rwa [show L0 + 1 + k = (L0 + 1) + k by omega] at this
        simp only [List.append_assoc]
        congr 1
        rw [← List.append_assoc, hcomm, List.append_assoc]
    · -- the chain stops here
      have hndvd' : ¬ S ^ (L0 + 1) ∣ (t + 1) := by
        rw [hcw] at hc2
        exact fun hd => hc2 ((cursor_zero_iff hS hdvd).mpr hd)
      have hcd : chainDrain (r :: rs') = ((Ring.tick r).1 :: rs', (Ring.tick r).2) := by
        simp only [chainDrain, if_neg hc2]
      rw [hcd]
      have hrsInv' : ∀ (k : Nat) (r2 : Ring T), rs'[k]? = some r2 →
          RingInv S (t + 1) (L0 + 1 + k) r2 ∧
          (∀ dl, ringDue S (t + 1) dl r2 = ringDue S t dl r2) := by
        intro k r2 hk
        have hold := hrs (k + 1) r2 (by simpa using hk)
        rw [show L0 + (k + 1) = L0 + 1 + k by omega] at hold
        exact ring_notick hS hold (not_dvd_pow_higher hndvd' (by omega))
      refine ⟨?_, by simp, ?_, ?_⟩
      · intro k r2 hk
        cases k with
        | zero =>
          simp only [List.getElem?_cons_zero] at hk
          cases Option.some.inj hk
          simpa using hInv'
        | succ k =>
          simp only [List.getElem?_cons_succ] at hk
          have := (hrsInv' k r2 hk).1
          rwa [show L0 + 1 + k = L0 + (k + 1) by omega] at this
      · intro e he
        exact ⟨L0, Nat.le_refl _, by simp, hdvd, houtb e he⟩
      · intro dl
        simp only [List.map_cons, concatL_cons]
        rw [hdleq dl]
        have htail : concatL (rs'.map (ringDue S t dl)) =
            concatL (rs'.map (ringDue S (t + 1) dl)) := by
          apply Eq.symm
          apply congrArg
          apply List.map_congr_left
          intro r2 hr2
          obtain ⟨k, hk⟩ := List.mem_iff_getElem?.mp hr2
          exact (hrsInv' k r2 hk).2 dl
        rw [htail]
        have hcomm : (((Ring.tick r).2.filter fun e => t + 1 + e.1 == dl).map Prod.snd) ++
            concatL (rs'.map (ringDue S (t + 1) dl)) =
            concatL (rs'.map (ringDue S (t + 1) dl)) ++
            (((Ring.tick r).2.filter fun e => t + 1 + e.1 == dl).map Prod.snd) := by
          apply append_comm_of_imp
          intro hne
          have hdl : dl < t + 1 + S ^ L0 := by
            by_contra hcon
            push_neg at hcon
            apply hne
            simp only [List.map_eq_nil_iff]
            apply List.filter_eq_nil_iff.mpr
            intro e he
            have := houtb e he
            simp only [beq_iff_eq]
            omega
          apply concat_ringDue_vanish hS hdvd (by omega : L0 < L0 + 1) hdl
          intro k r2 hk
          exact (hrsInv' k r2 hk).1
        simp only [List.append_assoc]
        congr 1

theorem wheelDueFrom_vanish {T : Type} {S n t1 : Nat} {w : HierarchicalTimingWheel T}
    (hS : 2 ≤ S) (hInv : Inv S n t1 w) {M rd : Nat} (hdvd : S ^ M ∣ t1) (hrd : rd < S ^ M)
    {k : Nat} (hk : rd < S ^ k) :
    wheelDueFrom S t1 (t1 + rd) k w = [] := by
  unfold wheelDueFrom
  apply concatL_eq_nil
  intro l hl
  rw [List.mem_map] at hl
  obtain ⟨r, hr, rfl⟩ := hl
  obtain ⟨j, hj⟩ := List.mem_iff_getElem?.mp hr
  rw [List.getElem?_drop] at hj
  have hInvR := hInv.2 (k + j) r hj
  apply ringDue_eq_nil_of_lower hS hInvR
  have hlow := pow_mod_lower (M := k + j) hS hdvd
  have h1 : rd < S ^ (k + j) := lt_of_lt_of_le hk (Nat.pow_le_pow_right (by omega) (by omega))
  have h2 : min (S ^ (k + j)) (S ^ M) ≤ S ^ (k + j) - t1 % S ^ (k + j) := hlow
  omega

/-- Scheduling an internally generated residual `rd` (with `rd < S ^ M`
for a ticked level `M`, so `S ^ M ∣ t1`) at an aligned time `t1` appends
the payload at the very end of the wheel's due list for `t1 + rd` and
changes nothing else. -/
theorem schedule_aligned_effect {T : Type} {S n t1 : Nat} {w : HierarchicalTimingWheel T}
    (hInv : Inv S n t1 w) (hS : 2 ≤ S) (hn : 1 ≤ n) {rd M : Nat} (x : T)
    (hrd1 : 1 ≤ rd) (hM : M < n) (hdvd : S ^ M ∣ t1) (hrd : rd < S ^ M) :
    ∃ L' s', (w.schedule rd x).2 = .ok (L', s') ∧ L' < M ∧
    Inv S n t1 (w.schedule rd x).1 ∧
    (∀ dl, wheelDue S t1 dl (w.schedule rd x).1 =
      wheelDue S t1 dl w ++ (if dl = t1 + rd then [x] else [])) := by
  have hlt : rd < S ^ n :=
    lt_of_lt_of_le hrd (Nat.pow_le_pow_right (by omega) (by omega))
  obtain ⟨hok, hInv', hUp, hFrom⟩ := schedule_effect hInv hS x hrd1 hlt
  have hL' : Nat.log S rd < M := Nat.log_lt_of_lt_pow (by omega) hrd
  have hdvdL : S ^ Nat.log S rd ∣ t1 :=
    (Nat.pow_dvd_pow S (by omega)).trans hdvd
  have hmod : t1 % S ^ Nat.log S rd = 0 := by
    rcases hdvdL with ⟨q, hq⟩
    rw [hq]
    exact Nat.mul_mod_right _ q
  have hdlx : t1 - t1 % S ^ Nat.log S rd + rd = t1 + rd := by omega
  refine ⟨Nat.log S rd, _, hok, hL', hInv', ?_⟩
  intro dl
  rw [wheelDue_eq_split S t1 dl (Nat.log S rd + 1) (w.schedule rd x).1,
      wheelDue_eq_split S t1 dl (Nat.log S rd + 1) w, hUp dl, hFrom dl, hdlx]
  by_cases hdl : dl = t1 + rd
  · rw [if_pos hdl]
    have hvan : wheelDueFrom S t1 dl (Nat.log S rd + 1) w = [] := by
      rw [hdl]
      exact wheelDueFrom_vanish hS hInv hdvd hrd (Nat.lt_pow_succ_log_self (by omega) rd)
    rw [hvan]
    simp
  · rw [if_neg hdl]
    simp

theorem processGraduated_effect {T : Type} {S n t1 : Nat} (hS : 2 ≤ S) (hn : 1 ≤ n) :
    ∀ (grad : List (Nat × T)) (w : HierarchicalTimingWheel T) (due : List T),
      Inv S n t1 w →
      (∀ e ∈ grad, ∃ M, 1 ≤ M ∧ M < n ∧ S ^ M ∣ t1 ∧ e.1 < S ^ M) →
      ∃ w2, processGraduated w grad due =
          some (w2, due ++ ((grad.filter fun e => e.1 == 0).map Prod.snd)) ∧
        Inv S n t1 w2 ∧
        (∀ dl, wheelDue S t1 dl w2 = wheelDue S t1 dl w ++
          ((grad.filter fun e => decide (1 ≤ e.1) && (t1 + e.1 == dl)).map Prod.snd)) := by
  intro grad
  induction grad with
  | nil =>
    intro w due hInv _
    exact ⟨w, by simp [processGraduated], hInv, fun dl => by simp [List.filter_nil]⟩
  | cons e rest ih =>
    intro w due hInv hgrad
    obtain ⟨rd, x⟩ := e
    by_cases h0 : rd = 0
    · subst h0
      obtain ⟨w2, hpg, hInv2, hdue2⟩ := ih w (due ++ [x]) hInv
        (fun e he => hgrad e (by simp [he]))
      refine ⟨w2, ?_, hInv2, ?_⟩
      · simp only [processGraduated, if_pos rfl]
        rw [hpg]
        simp [List.filter_cons]
      · intro dl
        rw [hdue2 dl]
        simp [List.filter_cons]
    · obtain ⟨M, hM1, hMn, hMdvd, hMlt⟩ := hgrad (rd, x) (by simp)
      obtain ⟨L', s', hok, _, hInv', hDue'⟩ :=
        schedule_aligned_effect hInv hS hn x (by omega) hMn hMdvd hMlt
      obtain ⟨w2, hpg, hInv2, hdue2⟩ := ih (w.schedule rd x).1 due hInv'
        (fun e he => hgrad e (by simp [he]))
      refine ⟨w2, ?_, hInv2, ?_⟩
      · simp only [processGraduated, if_neg h0]
        rw [hok]
        rw [hpg]
        have : (List.filter (fun e => e.1 == 0) ((rd, x) :: rest)) =
            List.filter (fun e => e.1 == 0) rest := by
          rw [List.filter_cons]
          have : ((rd, x).1 == 0) = false := by simp [h0]
          rw [this]
          simp
        rw [this]
      · intro dl
        rw [hdue2 dl, hDue' dl]
        rw [List.filter_cons]
        by_cases hdl : dl = t1 + rd
        · have hp : (decide (1 ≤ (rd, x).1) && (t1 + (rd, x).1 == dl)) = true := by
            simp only [Bool.and_eq_true, decide_eq_true_eq, beq_iff_eq]
            omega
          rw [hp, if_pos hdl]
          simp [List.append_assoc]
        · have hp : (decide (1 ≤ (rd, x).1) && (t1 + (rd, x).1 == dl)) = false := by
            have hne : (t1 + (rd, x).1 == dl) = false := by
              simp only [beq_eq_false_iff_ne, ne_eq]
              omega
            rw [hne, Bool.and_false]
          rw [hp, if_neg hdl]
          simp [List.append_assoc]

theorem wheelDue_cons {T : Type} (S t dl : Nat) (r : Ring T) (rs : List (Ring T)) :
    wheelDue S t dl (⟨r :: rs⟩ : HierarchicalTimingWheel T) =
      ringDue S t dl r ++ concatL (rs.map (ringDue S t dl)) := rfl

theorem mk_rings {T : Type} (l : List (Ring T)) :
    (⟨l⟩ : HierarchicalTimingWheel T).rings = l := rfl

/-- One base tick pass: the fired list is exactly the wheel's due list for
time `t + 1`, the invariant advances to `t + 1`, and due lists for strictly
later deadlines are preserved. -/
theorem tickPass_effect {T : Type} {S n t : Nat} {w : HierarchicalTimingWheel T}
    (hS : 2 ≤ S) (hn : 1 ≤ n) (hInv : Inv S n t w) :
    ∃ w', tickPass w [] = some (w', wheelDue S t (t + 1) w) ∧
      Inv S n (t + 1) w' ∧
      ∀ dl, t + 1 < dl → wheelDue S (t + 1) dl w' = wheelDue S t dl w := by
  cases hrings : w.rings with
  | nil =>
    have := hInv.1
    rw [hrings] at this
    simp at this
    omega
  | cons r0 rest =>
    have hlen : rest.length + 1 = n := by
      have := hInv.1
      rw [hrings] at this
      simpa using this
    have hInv0 : RingInv S t 0 r0 :=
      hInv.2 0 r0 (by rw [hrings, List.getElem?_cons_zero])
    have hdvd0 : S ^ 0 ∣ (t + 1) := by simp
    obtain ⟨h0inv, h0b, h0dl⟩ := ring_tick hS hInv0 hdvd0
    have h0b' : ∀ e ∈ (Ring.tick r0).2, e.1 = 0 := by
      intro e he
      have := h0b e he
      simp only [Nat.pow_zero] at this
      omega
    have hrestInv : ∀ (k : Nat) (r : Ring T), rest[k]? = some r → RingInv S t (1 + k) r := by
      intro k r hk
      have hk' : w.rings[k + 1]? = some r := by
        rw [hrings]
        simpa using hk
      have := hInv.2 (k + 1) r hk'
      rw [Nat.add_comm 1 k]
      exact this
    have hWdl : ∀ dl, wheelDue S t dl w =
        (ringDue S (t + 1) dl (Ring.tick r0).1 ++
          ((Ring.tick r0).2.filter fun e => t + 1 + e.1 == dl).map Prod.snd) ++
        concatL (rest.map (ringDue S t dl)) := by
      intro dl
      rw [wheelDue, hrings, List.map_cons, concatL_cons, h0dl dl]
    have hring0nil : ∀ dl, dl ≤ t + 1 → ringDue S (t + 1) dl (Ring.tick r0).1 = [] := by
      intro dl hdl
      apply ringDue_eq_nil_of_lower hS h0inv
      simp only [Nat.pow_zero, Nat.mod_one]
      omega
    have hF0eq : ((Ring.tick r0).2.filter fun e => t + 1 + e.1 == t + 1).map Prod.snd =
        (Ring.tick r0).2.map Prod.snd := by
      congr 1
      apply List.filter_eq_self.mpr
      intro e he
      have h0 := h0b' e he
      simp [h0]
    have hF0nil : ∀ dl, t + 1 < dl →
        ((Ring.tick r0).2.filter fun e => t + 1 + e.1 == dl).map Prod.snd = [] := by
      intro dl hdl
      have hf : (Ring.tick r0).2.filter (fun e => t + 1 + e.1 == dl) = [] := by
        apply List.filter_eq_nil_iff.mpr
        intro e he
        have h0 := h0b' e he
        simp only [h0, beq_iff_eq]
        omega
      rw [hf, List.map_nil]
    by_cases hc : (Ring.tick r0).1.cursor = 0
    · -- the level-0 ring wrapped: the cascade chain runs on the higher rings
      have hcz : cursorAt S 0 (t + 1) = 0 := by
        rw [← h0inv.2.2.1]
        exact hc
      have hdvd1 : S ^ 1 ∣ (t + 1) := (cursor_zero_iff hS hdvd0).mp hcz
      obtain ⟨hcd1, hcdlen, hcdgrad, hcddl⟩ :=
        chainDrain_effect hS rest 1 (Nat.le_refl 1) hdvd1 hrestInv
      have hInv1 : Inv S n (t + 1)
          (⟨(Ring.tick r0).1 :: (chainDrain rest).1⟩ : HierarchicalTimingWheel T) := by
        constructor
        · rw [mk_rings]
          simp only [List.length_cons, hcdlen]
          omega
        · intro L r hr
          rw [mk_rings] at hr
          cases L with
          | zero =>
            simp only [List.getElem?_cons_zero, Option.some.injEq] at hr
            rw [← hr]
            exact h0inv
          | succ k =>
            simp only [List.getElem?_cons_succ] at hr
            have := hcd1 k r hr
            rw [Nat.add_comm 1 k] at this
            exact this
      have hgradHyp : ∀ e ∈ (chainDrain rest).2,
          ∃ M, 1 ≤ M ∧ M < n ∧ S ^ M ∣ (t + 1) ∧ e.1 < S ^ M := by
        intro e he
        obtain ⟨M, hM1, hM2, hM3, hM4⟩ := hcdgrad e he
        exact ⟨M, hM1, by omega, hM3, hM4⟩
      obtain ⟨w2, hpg, hInv2, hdue2⟩ :=
        processGraduated_effect hS hn (chainDrain rest).2
          ⟨(Ring.tick r0).1 :: (chainDrain rest).1⟩
          ((Ring.tick r0).2.map Prod.snd) hInv1 hgradHyp
      have htp : tickPass w [] =
          processGraduated ⟨(Ring.tick r0).1 :: (chainDrain rest).1⟩
            (chainDrain rest).2 ((Ring.tick r0).2.map Prod.snd) := by
        unfold tickPass
        rw [hrings, tickLoop_cons, if_pos hc]
        simp only [List.nil_append]
      have hvan : concatL ((chainDrain rest).1.map (ringDue S (t + 1) (t + 1))) = [] := by
        apply concat_ringDue_vanish hS hdvd0 (by omega) _ _ hcd1
        simp only [Nat.pow_zero]
        omega
      have hfg : (chainDrain rest).2.filter (fun e => t + 1 + e.1 == t + 1) =
          (chainDrain rest).2.filter (fun e => e.1 == 0) := by
        apply List.filter_congr
        intro e _
        rw [Bool.eq_iff_iff]
        simp only [beq_iff_eq]
        omega
      have hfired : wheelDue S t (t + 1) w =
          (Ring.tick r0).2.map Prod.snd ++
          (((chainDrain rest).2.filter fun e => e.1 == 0).map Prod.snd) := by
        rw [hWdl (t + 1), hring0nil (t + 1) (Nat.le_refl _), hcddl (t + 1), hvan, hF0eq, hfg]
        simp
      refine ⟨w2, ?_, hInv2, ?_⟩
      · rw [htp, hpg, hfired]
      · intro dl hdl
        rw [hdue2 dl]
        have hfg2 : (chainDrain rest).2.filter
              (fun e => decide (1 ≤ e.1) && (t + 1 + e.1 == dl)) =
            (chainDrain rest).2.filter (fun e => t + 1 + e.1 == dl) := by
          apply List.filter_congr
          intro e _
          rw [Bool.eq_iff_iff]
          simp only [Bool.and_eq_true, decide_eq_true_eq, beq_iff_eq]
          omega
        rw [wheelDue_cons, hfg2, hWdl dl, hcddl dl, hF0nil dl hdl]
        simp [List.append_assoc]
    · -- the level-0 ring did not wrap: no ring above level 0 ticks
      have hcnz : cursorAt S 0 (t + 1) ≠ 0 := by
        rw [← h0inv.2.2.1]
        exact hc
      have hnd1 : ¬ S ^ 1 ∣ (t + 1) := fun hd =>
        hcnz ((cursor_zero_iff hS hdvd0).mpr hd)
      have hrest' : ∀ (k : Nat) (r : Ring T), rest[k]? = some r →
          RingInv S (t + 1) (1 + k) r ∧ ∀ dl, ringDue S (t + 1) dl r = ringDue S t dl r := by
        intro k r hk
        exact ring_notick hS (hrestInv k r hk) (not_dvd_pow_higher hnd1 (by omega))
      have hInv1 : Inv S n (t + 1)
          (⟨(Ring.tick r0).1 :: rest⟩ : HierarchicalTimingWheel T) := by
        constructor
        · rw [mk_rings]
          simpa using hlen
        · intro L r hr
          rw [mk_rings] at hr
          cases L with
          | zero =>
            simp only [List.getElem?_cons_zero, Option.some.injEq] at hr
            rw [← hr]
            exact h0inv
          | succ k =>
            simp only [List.getElem?_cons_succ] at hr
            have := (hrest' k r hr).1
            rw [Nat.add_comm 1 k] at this
            exact this
      have htp : tickPass w [] =
          some (⟨(Ring.tick r0).1 :: rest⟩, (Ring.tick r0).2.map Prod.snd) := by
        unfold tickPass
        rw [hrings, tickLoop_cons, if_neg hc]
        simp [processGraduated]
      have hrestnil : concatL (rest.map (ringDue S t (t + 1))) = [] := by
        apply concatL_eq_nil
        intro l hl
        rw [List.mem_map] at hl
        obtain ⟨r, hr, rfl⟩ := hl
        obtain ⟨k, hk⟩ := List.mem_iff_getElem?.mp hr
        apply ringDue_eq_nil_of_lower hS (hrestInv k r hk)
        have hnd : ¬ S ^ (1 + k) ∣ (t + 1) := not_dvd_pow_higher hnd1 (by omega)
        have hp : 0 < S ^ (1 + k) := Nat.pos_pow_of_pos _ (by omega)
        have hmod := (succ_div_mod_of_not_dvd hp hnd).2
        have hm2 : (t + 1) % S ^ (1 + k) < S ^ (1 + k) := Nat.mod_lt _ hp
        omega
      have hfired : wheelDue S t (t + 1) w = (Ring.tick r0).2.map Prod.snd := by
        rw [hWdl (t + 1), hring0nil (t + 1) (Nat.le_refl _), hrestnil, hF0eq]
        simp
      refine ⟨⟨(Ring.tick r0).1 :: rest⟩, ?_, hInv1, ?_⟩
      · rw [htp, hfired]
      · intro dl hdl
        rw [wheelDue_cons, hWdl dl, hF0nil dl hdl]
        have hrc : concatL (rest.map (ringDue S (t + 1) dl)) =
            concatL (rest.map (ringDue S t dl)) := by
          congr 1
          apply List.map_congr_left
          intro r hr
          obtain ⟨k, hk⟩ := List.mem_iff_getElem?.mp hr
          exact (hrest' k r hk).2 dl
        rw [hrc]
        simp

/-- Multi-step `tick`: `k` passes fire exactly the wheel's due lists for
the times `t + 1 .. t + k`, in order; the invariant advances to `t + k`
and due lists for strictly later deadlines are preserved. -/
theorem tick_effect {T : Type} {S n : Nat} (hS : 2 ≤ S) (hn : 1 ≤ n) :
    ∀ (k t : Nat) (w : HierarchicalTimingWheel T), Inv S n t w →
      ∃ w', w.tick k = some (w',
          concatL ((List.range k).map fun j => wheelDue S t (t + j + 1) w)) ∧
        Inv S n (t + k) w' ∧
        ∀ dl, t + k < dl → wheelDue S (t + k) dl w' = wheelDue S t dl w := by
  intro k
  induction k with
  | zero =>
    intro t w hInv
    refine ⟨w, ?_, hInv, fun dl _ => rfl⟩
    simp [HierarchicalTimingWheel.tick, tickAux]
  | succ k ih =>
    intro t w hInv
    obtain ⟨w1, htp, hInv1, hpres1⟩ := tickPass_effect hS hn hInv
    obtain ⟨w', htick, hInv', hpres'⟩ := ih (t + 1) w1 hInv1
    refine ⟨w', ?_, ?_, ?_⟩
    · show tickAux w (k + 1) [] = _
      simp only [tickAux]
      rw [htp]
      show tickAux w1 k (wheelDue S t (t + 1) w) = _
      rw [tickAux_acc k w1 (wheelDue S t (t + 1) w),
          show tickAux w1 k [] = w1.tick k from rfl, htick]
      simp only [Option.map]
      congr 2
      rw [List.range_succ_eq_map]
      simp only [List.map_cons, concatL_cons, List.map_map]
      congr 1
      congr 1
      apply List.map_congr_left
      intro j _
      simp only [Function.comp_apply]
      have harg : t + 1 + j + 1 = t + Nat.succ j + 1 := by omega
      rw [harg]
      exact hpres1 (t + Nat.succ j + 1) (by omega)
    · rw [show t + (k + 1) = t + 1 + k by omega]
      exact hInv'
    · intro dl hdl
      rw [show t + (k + 1) = t + 1 + k by omega]
      rw [hpres' dl (by omega), hpres1 dl (by omega)]

theorem schedule_normalize {T : Type} (w : HierarchicalTimingWheel T) (d : Nat) (x : T) :
    w.schedule d x = w.schedule (normalizeDelay d) x := by
  unfold HierarchicalTimingWheel.schedule
  rw [normalizeDelay_of_pos (normalizeDelay_pos d)]

theorem schedule_error_unchanged {T : Type} {w : HierarchicalTimingWheel T} {d : Nat} {x : T}
    (h : (w.schedule d x).2 = .error .DelayTooLarge) :
    (w.schedule d x).1 = w := by
  have h' : (scheduleGo w.rings 0 (normalizeDelay d) x).2 = .error .DelayTooLarge := h
  show (⟨(scheduleGo w.rings 0 (normalizeDelay d) x).1⟩ : HierarchicalTimingWheel T) = w
  rw [scheduleGo_error_eq _ _ _ _ h']

/-- Every wheel reachable by the public API (`new`, `schedule`, `tick`)
satisfies the whole-wheel invariant at its tick count. -/
theorem reachable_inv {T : Type} {S n cap t : Nat} {w : HierarchicalTimingWheel T}
    (hS : 2 ≤ S) (hn : 1 ≤ n) (hr : Reachable T S n cap t w) : Inv S n t w := by
  induction hr with
  | init => exact inv_new S n cap hS
  | @sched t' w' d x hr ih =>
    by_cases hbig : S ^ n ≤ normalizeDelay d
    · rw [schedule_error_unchanged ((schedule_error_iff (inv_shape ih) d x).mpr hbig)]
      exact ih
    · push_neg at hbig
      rw [schedule_normalize]
      exact (schedule_effect ih hS x (normalizeDelay_pos d) hbig).2.1
  | @step t' w' k w'' out hr htick ih =>
    obtain ⟨w2, htick2, hInv2, _⟩ := tick_effect hS hn k t' w' ih
    rw [htick] at htick2
    have heq := Option.some.inj htick2
    rw [show w'' = w2 from congrArg Prod.fst heq]
    exact hInv2

theorem mem_concatL {α : Type} {x : α} :
    ∀ {ls : List (List α)} {l : List α}, l ∈ ls → x ∈ l → x ∈ concatL ls := by
  intro ls
  induction ls with
  | nil => intro l h; cases h
  | cons a as ih =>
    intro l hl hx
    rw [concatL_cons, List.mem_append]
    rcases List.mem_cons.mp hl with h | h
    · exact Or.inl (h ▸ hx)
    · exact Or.inr (ih h hx)

/-- An entry `(rd, x)` stored in slot `i` of the ring at level `L`
contributes its payload to the wheel's due list at its deadline. -/
theorem mem_wheelDue_entry {T : Type} {S n t : Nat} {w : HierarchicalTimingWheel T}
    (hInv : Inv S n t w) {L : Nat} {r : Ring T} (hr : w.rings[L]? = some r)
    {i : Nat} {q : List (Nat × T)} (hq : r.slots[i]? = some q)
    {rd : Nat} {x : T} (hmem : (rd, x) ∈ q) :
    x ∈ wheelDue S t (dlOf S t L i rd) w := by
  have hlvl : r.level = L := (hInv.2 L r hr).1
  have hi : i < r.slots.length := getElem?_lt hq
  have hrm : r ∈ w.rings := List.mem_iff_getElem?.mpr ⟨L, hr⟩
  show x ∈ concatL (w.rings.map (ringDue S t (dlOf S t L i rd)))
  apply mem_concatL (List.mem_map_of_mem _ hrm)
  show x ∈ concatL ((List.range r.slots.length).map fun j =>
    slotDue S t r.level j (dlOf S t L i rd) (r.slots.getD j []))
  apply mem_concatL (List.mem_map_of_mem _ (List.mem_range.mpr hi))
  show x ∈ (((r.slots.getD i []).filter fun e =>
    dlOf S t r.level i e.1 == dlOf S t L i rd).map Prod.snd)
  have hgd : r.slots.getD i [] = q := getD_of_getElem? [] hq
  rw [List.mem_map]
  refine ⟨(rd, x), ?_, rfl⟩
  rw [List.mem_filter]
  refine ⟨hgd ▸ hmem, ?_⟩
  rw [hlvl]
  exact beq_self_eq_true _

/-- C1, amended: on a wheel of `n ≥ 1` levels and `S ≥ 2` slots per level
that is freshly constructed and then ticked `t0` times, an accepted delay
`d` (so `1 ≤ d < S ^ n`) is placed at level `Nat.log S d`, and the payload
is returned by the `m`-th subsequent single tick where
`m = d - t0 % S ^ Nat.log S d`, and by no earlier tick.  The original
claim asserts `m = d` for every `t0`; that is refuted by
`C1_counterexample`, where the payload fires after `1 < d = 2` ticks. -/
theorem C1_exact_delay_amended {T : Type} (S n cap t0 d : Nat) (x : T)
    (hS : 2 ≤ S) (hn : 1 ≤ n) (hd1 : 1 ≤ d) (hacc : d < S ^ n) :
    ∃ w1, (HierarchicalTimingWheel.new T n cap S).tick t0 = some (w1, []) ∧
      ∃ s, (w1.schedule d x).2 = .ok (Nat.log S d, s) ∧
      (∀ j, j < d - t0 % S ^ Nat.log S d →
        ∃ wj, ((w1.schedule d x).1).tick j = some (wj, [])) ∧
      ∃ wm, ((w1.schedule d x).1).tick (d - t0 % S ^ Nat.log S d) = some (wm, [x]) ∧
        1 ≤ d - t0 % S ^ Nat.log S d ∧ d - t0 % S ^ Nat.log S d ≤ d := by
  have hInv0 := inv_new (T := T) S n cap hS
  obtain ⟨w1, htick1, hInv1a, hpres1⟩ := tick_effect hS hn t0 0 _ hInv0
  have hout1 : concatL ((List.range t0).map fun j => wheelDue S 0 (0 + j + 1)
      (HierarchicalTimingWheel.new T n cap S)) = [] := by
    apply concatL_eq_nil
    intro l hl
    rw [List.mem_map] at hl
    obtain ⟨j, _, rfl⟩ := hl
    exact wheelDue_new S 0 (0 + j + 1) n cap S
  rw [hout1] at htick1
  rw [Nat.zero_add] at hInv1a hpres1
  have hW1nil : ∀ dl, t0 < dl → wheelDue S t0 dl w1 = [] := by
    intro dl hdl
    rw [hpres1 dl hdl, wheelDue_new]
  have hppos : 0 < S ^ Nat.log S d := Nat.pos_pow_of_pos _ (by omega)
  have hpled : S ^ Nat.log S d ≤ d := Nat.pow_log_le_self S (by omega)
  have hm0 : t0 % S ^ Nat.log S d < S ^ Nat.log S d := Nat.mod_lt _ hppos
  have hm0t : t0 % S ^ Nat.log S d ≤ t0 := Nat.mod_le _ _
  obtain ⟨hok, hInv2, hUp, hFrom⟩ := schedule_effect hInv1a hS x hd1 hacc
  have hW2 : ∀ dl, t0 < dl → wheelDue S t0 dl (w1.schedule d x).1 =
      (if dl = (t0 - t0 % S ^ Nat.log S d) + d then [x] else []) := by
    intro dl hdl
    rw [wheelDue_eq_split S t0 dl (Nat.log S d + 1), hUp dl, hFrom dl]
    have hsplit := wheelDue_eq_split S t0 dl (Nat.log S d + 1) w1
    rw [hW1nil dl hdl] at hsplit
    obtain ⟨hup1, hfrom1⟩ := List.append_eq_nil.mp hsplit.symm
    rw [hup1, hfrom1]
    simp
  have hm1 : 1 ≤ d - t0 % S ^ Nat.log S d := by omega
  refine ⟨w1, htick1, _, hok, ?_, ?_⟩
  · intro j hj
    obtain ⟨wj, htj, _, _⟩ := tick_effect hS hn j t0 _ hInv2
    have hX : concatL ((List.range j).map fun i =>
        wheelDue S t0 (t0 + i + 1) ((w1.schedule d x).1)) = [] := by
      apply concatL_eq_nil
      intro l hl
      rw [List.mem_map] at hl
      obtain ⟨i, hi, rfl⟩ := hl
      rw [List.mem_range] at hi
      rw [hW2 (t0 + i + 1) (by omega), if_neg (by omega)]
    exact ⟨wj, by rw [htj, hX]⟩
  · obtain ⟨wm, htm, _, _⟩ := tick_effect hS hn (d - t0 % S ^ Nat.log S d) t0 _ hInv2
    have hside : ∀ i, i < d - t0 % S ^ Nat.log S d →
        i ≠ d - t0 % S ^ Nat.log S d - 1 →
        wheelDue S t0 (t0 + i + 1) ((w1.schedule d x).1) = [] := by
      intro i hi hne
      rw [hW2 (t0 + i + 1) (by omega), if_neg (by omega)]
    have hsingle := concatL_map_range_single (d - t0 % S ^ Nat.log S d)
      (d - t0 % S ^ Nat.log S d - 1) (by omega) _ hside
    have hX : concatL ((List.range (d - t0 % S ^ Nat.log S d)).map fun j =>
        wheelDue S t0 (t0 + j + 1) ((w1.schedule d x).1)) = [x] := by
      rw [hsingle, hW2 _ (by omega), if_pos (by omega)]
    exact ⟨wm, by rw [htm, hX], hm1, Nat.sub_le _ _⟩

/-- C1, counterexample to the frozen claim: slots-per-level 2, two levels,
one tick applied before scheduling.  Delay 2 is accepted (at level 1,
slot 1), yet the payload is already returned by the first subsequent
tick, not the second. -/
theorem C1_counterexample :
    ((HierarchicalTimingWheel.new Nat 2 16 2).tick 1).map
        (fun p => ((p.1.schedule 2 7).2, ((p.1.schedule 2 7).1.tick 1).map Prod.snd)) =
      some (Except.ok (1, 1), some [7]) := by decide

/-- C1, witness: the amended theorem applied at `S = 2`, `n = 2`,
`cap = 4`, `t0 = 1`, `d = 2`: the payload fires on tick `2 - 1 % 2 = 1`. -/
theorem C1_witness :
    ∃ w1, (HierarchicalTimingWheel.new Nat 2 4 2).tick 1 = some (w1, []) ∧
      ∃ s, (w1.schedule 2 7).2 = .ok (Nat.log 2 2, s) ∧
      (∀ j, j < 2 - 1 % 2 ^ Nat.log 2 2 →
        ∃ wj, ((w1.schedule 2 7).1).tick j = some (wj, [])) ∧
      ∃ wm, ((w1.schedule 2 7).1).tick (2 - 1 % 2 ^ Nat.log 2 2) = some (wm, [7]) ∧
        1 ≤ 2 - 1 % 2 ^ Nat.log 2 2 ∧ 2 - 1 % 2 ^ Nat.log 2 2 ≤ 2 :=
  C1_exact_delay_amended 2 2 4 1 2 7 (by decide) (by decide) (by decide) (by decide)

/-- C2, amended: after any reachable sequence of operations (`t` base
ticks seen so far), every entry `(rd, x)` in slot `i` of the level-`L`
ring satisfies `rd < span(L) = S ^ L`, and the payload is returned by the
`m`-th subsequent single tick where
`m = ((i - cursor_L) mod S) * S ^ L + rd - t mod S ^ L`.  The frozen
claim omits the `- t mod S ^ L` correction; `C2_counterexample` shows a
reachable state where the claimed count is 2 but the entry fires after
1 tick. -/
theorem C2_slot_invariant_amended {T : Type} (S n cap t : Nat)
    (w : HierarchicalTimingWheel T) (hS : 2 ≤ S) (hn : 1 ≤ n)
    (hr : Reachable T S n cap t w) :
    ∀ (L : Nat) (r : Ring T), w.rings[L]? = some r →
      (∀ (i : Nat) (q : List (Nat × T)), r.slots[i]? = some q → ∀ e ∈ q, e.1 < S ^ L) ∧
      (∀ (i : Nat) (q : List (Nat × T)) (rd : Nat) (x : T), r.slots[i]? = some q →
        (rd, x) ∈ q →
        1 ≤ offsetFrom S (cursorAt S L t) i * S ^ L + rd - t % S ^ L ∧
        ∃ wpre opre w' out,
          w.tick (offsetFrom S (cursorAt S L t) i * S ^ L + rd - t % S ^ L - 1) =
            some (wpre, opre) ∧
          wpre.tick 1 = some (w', out) ∧ x ∈ out) := by
  have hInv := reachable_inv hS hn hr
  intro L r hring
  have hRI := hInv.2 L r hring
  refine ⟨hRI.2.2.2.2, ?_⟩
  intro i q rd x hq hmem
  have hlen : r.slots.length = S := hRI.2.1
  have hi : i < S := by
    have := getElem?_lt hq
    omega
  have hcur : cursorAt S L t < S := cursorAt_lt hS
  have hne : i ≠ cursorAt S L t := by
    intro heq
    have hqe : q = [] := by
      have := hRI.2.2.2.1
      rw [hRI.2.2.1] at this
      rw [← heq] at this
      rw [getD_of_getElem? [] hq] at this
      exact this
    rw [hqe] at hmem
    cases hmem
  have hoff : 1 ≤ offsetFrom S (cursorAt S L t) i := offsetFrom_pos hcur hi hne
  have hppos : 0 < S ^ L := Nat.pos_pow_of_pos L (by omega)
  have hople : S ^ L ≤ offsetFrom S (cursorAt S L t) i * S ^ L :=
    Nat.le_mul_of_pos_left _ (by omega)
  have hmodlt : t % S ^ L < S ^ L := Nat.mod_lt _ hppos
  have hmodle : t % S ^ L ≤ t := Nat.mod_le _ _
  have hm1 : 1 ≤ offsetFrom S (cursorAt S L t) i * S ^ L + rd - t % S ^ L := by omega
  refine ⟨hm1, ?_⟩
  have hdl : dlOf S t L i rd =
      t + (offsetFrom S (cursorAt S L t) i * S ^ L + rd - t % S ^ L) := by
    unfold dlOf
    omega
  have hx : x ∈ wheelDue S t
      (t + (offsetFrom S (cursorAt S L t) i * S ^ L + rd - t % S ^ L)) w := by
    rw [← hdl]
    exact mem_wheelDue_entry hInv hring hq hmem
  obtain ⟨wpre, htpre, hInvpre, hprespre⟩ := tick_effect hS hn
    (offsetFrom S (cursorAt S L t) i * S ^ L + rd - t % S ^ L - 1) t w hInv
  obtain ⟨w', htp, _, _⟩ := tickPass_effect hS hn hInvpre
  have harg : t + (offsetFrom S (cursorAt S L t) i * S ^ L + rd - t % S ^ L - 1) + 1 =
      t + (offsetFrom S (cursorAt S L t) i * S ^ L + rd - t % S ^ L) := by omega
  rw [harg] at htp
  refine ⟨wpre, _, w',
    wheelDue S t (t + (offsetFrom S (cursorAt S L t) i * S ^ L + rd - t % S ^ L)) w,
    htpre, ?_, hx⟩
  rw [tick_one, htp, hprespre _ (by omega)]

/-- C2, counterexample to the frozen claim: slots-per-level 2, two
levels, three ticks applied, then delay 2 scheduled.  The entry lands in
slot 0 of ring 1 with residual 0 while `cursor_1 = 1`, so the claimed
due count is `((0 - 1) mod 2) * 2 + 0 = 2` ticks — but the payload is
returned by the very next tick. -/
theorem C2_counterexample :
    ((HierarchicalTimingWheel.new Nat 2 16 2).tick 3).map
        (fun p => ((p.1.schedule 2 9).2, ((p.1.schedule 2 9).1.tick 1).map Prod.snd)) =
      some (Except.ok (1, 0), some [9]) ∧
    ((HierarchicalTimingWheel.new Nat 2 16 2).tick 3).map
        (fun p => (p.1.schedule 2 9).1) =
      some ⟨[⟨0, 1, [[], []]⟩, ⟨1, 1, [[(0, 9)], []]⟩]⟩ ∧
    offsetFrom 2 1 0 * 2 ^ 1 + 0 = 2 := by
  refine ⟨by decide, by decide, by decide⟩

/-- C2, witness: the amended theorem applied to the reachable wheel
obtained by scheduling delay 1 (payload 7) on a fresh 2-level wheel with
2 slots per level, at the entry `(0, 7)` in slot 1 of ring 0. -/
theorem C2_witness :
    1 ≤ offsetFrom 2 (cursorAt 2 0 0) 1 * 2 ^ 0 + 0 - 0 % 2 ^ 0 ∧
    ∃ wpre opre w' out,
      (((HierarchicalTimingWheel.new Nat 2 4 2).schedule 1 7).1).tick
          (offsetFrom 2 (cursorAt 2 0 0) 1 * 2 ^ 0 + 0 - 0 % 2 ^ 0 - 1) =
        some (wpre, opre) ∧
      wpre.tick 1 = some (w', out) ∧ 7 ∈ out :=
  (C2_slot_invariant_amended 2 2 4 0 _ (by decide) (by decide)
      (Reachable.sched 1 7 Reachable.init) 0 ⟨0, 0, [[], [(0, 7)]]⟩ (by decide)).2
    1 [(0, 7)] 0 7 (by decide) (by decide)

/-- C3: on every reachable wheel (`n ≥ 1` levels, `S ≥ 2` slots per
level), `tick` never fails — neither by the internal `unwrap` nor by an
out-of-bounds ring index (the embedding returns `none` for both) — and
every internally generated residual delay `rd` drained from a level-`L`
ring (so `1 ≤ rd < S ^ L` with `L < n`) is re-accepted by `schedule` at
the strictly lower level `Nat.log S rd`. -/
theorem C3_cascade_reschedule_safe {T : Type} (S n cap t : Nat)
    (w : HierarchicalTimingWheel T) (hS : 2 ≤ S) (hn : 1 ≤ n)
    (hr : Reachable T S n cap t w) :
    (∀ k, (w.tick k).isSome = true) ∧
    (∀ (L rd : Nat) (x : T), L < n → 1 ≤ rd → rd < S ^ L →
      ∃ s, (w.schedule rd x).2 = .ok (Nat.log S rd, s) ∧ Nat.log S rd < L) := by
  have hInv := reachable_inv hS hn hr
  constructor
  · intro k
    obtain ⟨w', htick, _, _⟩ := tick_effect hS hn k t w hInv
    rw [htick]
    rfl
  · intro L rd x hL hrd1 hrdS
    have hlt : rd < S ^ n :=
      lt_of_lt_of_le hrdS (Nat.pow_le_pow_right (by omega) (by omega))
    obtain ⟨hok, _, _, _⟩ := schedule_effect hInv hS x hrd1 hlt
    exact ⟨_, hok, Nat.log_lt_of_lt_pow (by omega) hrdS⟩

/-- C3, witness: the safety statement applied to a fresh 2-level wheel
with 2 slots per level. -/
theorem C3_witness :
    (∀ k, ((HierarchicalTimingWheel.new Nat 2 4 2).tick k).isSome = true) ∧
    (∀ (L rd : Nat) (x : Nat), L < 2 → 1 ≤ rd → rd < 2 ^ L →
      ∃ s, ((HierarchicalTimingWheel.new Nat 2 4 2).schedule rd x).2 =
          .ok (Nat.log 2 rd, s) ∧ Nat.log 2 rd < L) :=
  C3_cascade_reschedule_safe 2 2 4 0 _ (by decide) (by decide) Reachable.init

/-- C7: `schedule 0` is literally `schedule 1` — the same `(level, slot)`
result and the same post-call wheel — and on every reachable wheel the
payload scheduled with delay 0 is returned by the very next single tick. -/
theorem C7_zero_delay_normalization {T : Type} :
    (∀ (w : HierarchicalTimingWheel T) (x : T), w.schedule 0 x = w.schedule 1 x) ∧
    (∀ (S n cap t : Nat) (w : HierarchicalTimingWheel T) (x : T), 2 ≤ S → 1 ≤ n →
      Reachable T S n cap t w →
      ∃ w1 out, ((w.schedule 0 x).1).tick 1 = some (w1, out) ∧ x ∈ out) := by
  have h01 : ∀ (w : HierarchicalTimingWheel T) (x : T),
      w.schedule 0 x = w.schedule 1 x := by
    intro w x
    rw [schedule_normalize w 0 x, show normalizeDelay 0 = 1 by decide]
  refine ⟨h01, ?_⟩
  intro S n cap t w x hS hn hr
  have hInv := reachable_inv hS hn hr
  have hSn : S ≤ S ^ n := by
    calc S = S ^ 1 := (pow_one S).symm
    _ ≤ S ^ n := Nat.pow_le_pow_right (by omega) hn
  obtain ⟨hok, hInv2, hUp, hFrom⟩ := schedule_effect hInv hS x (Nat.le_refl 1) (by omega)
  obtain ⟨w1, htp, _, _⟩ := tickPass_effect hS hn hInv2
  have hlog : Nat.log S 1 = 0 := Nat.log_eq_zero_iff.mpr (Or.inl (by omega))
  refine ⟨w1, wheelDue S t (t + 1) (w.schedule 1 x).1, ?_, ?_⟩
  · rw [h01, tick_one]
    exact htp
  · rw [wheelDue_eq_split S t (t + 1) (Nat.log S 1 + 1), hUp (t + 1)]
    have hcond : t + 1 = t - t % S ^ Nat.log S 1 + 1 := by
      rw [hlog]
      simp [Nat.mod_one]
    rw [if_pos hcond]
    simp

/-- C7, witness: scheduling payload 5 with delay 0 on a fresh wheel; it
is returned by the next tick. -/
theorem C7_witness :
    ∃ w1 out, (((HierarchicalTimingWheel.new Nat 2 4 2).schedule 0 5).1).tick 1 =
      some (w1, out) ∧ 5 ∈ out :=
  (C7_zero_delay_normalization (T := Nat)).2 2 2 4 0 _ 5 (by decide) (by decide)
    Reachable.init

/-- C8: two payloads scheduled back-to-back with the same delay on a
reachable wheel are both returned by the same single tick (the `m`-th
one), adjacent and in scheduling order. -/
theorem C8_same_slot_batching {T : Type} (S n cap t d : Nat)
    (w : HierarchicalTimingWheel T) (x y : T) (hS : 2 ≤ S) (hn : 1 ≤ n)
    (hr : Reachable T S n cap t w) (hacc : normalizeDelay d < S ^ n) :
    ∃ m u v, 1 ≤ m ∧
      ∃ wpre opre w' , (((w.schedule d x).1.schedule d y).1).tick (m - 1) =
          some (wpre, opre) ∧
        wpre.tick 1 = some (w', u ++ x :: y :: v) := by
  have hInv := reachable_inv hS hn hr
  have hd1 := normalizeDelay_pos d
  rw [schedule_normalize w d x,
      schedule_normalize (w.schedule (normalizeDelay d) x).1 d y]
  obtain ⟨hok1, hInv1, hUp1, hFrom1⟩ := schedule_effect hInv hS x hd1 hacc
  obtain ⟨hok2, hInv2, hUp2, hFrom2⟩ := schedule_effect hInv1 hS y hd1 hacc
  have hppos : 0 < S ^ Nat.log S (normalizeDelay d) := Nat.pos_pow_of_pos _ (by omega)
  have hpled : S ^ Nat.log S (normalizeDelay d) ≤ normalizeDelay d :=
    Nat.pow_log_le_self S (by omega)
  have hmod : t % S ^ Nat.log S (normalizeDelay d) < S ^ Nat.log S (normalizeDelay d) :=
    Nat.mod_lt _ hppos
  have hmodle : t % S ^ Nat.log S (normalizeDelay d) ≤ t := Nat.mod_le _ _
  have hm1 : 1 ≤ t - t % S ^ Nat.log S (normalizeDelay d) + normalizeDelay d - t := by
    omega
  have hdue2 : wheelDue S t
      (t - t % S ^ Nat.log S (normalizeDelay d) + normalizeDelay d)
      ((w.schedule (normalizeDelay d) x).1.schedule (normalizeDelay d) y).1 =
      (wheelDueUpTo S t (t - t % S ^ Nat.log S (normalizeDelay d) + normalizeDelay d)
        (Nat.log S (normalizeDelay d) + 1) w) ++ x :: y ::
      (wheelDueFrom S t (t - t % S ^ Nat.log S (normalizeDelay d) + normalizeDelay d)
        (Nat.log S (normalizeDelay d) + 1) w) := by
    rw [wheelDue_eq_split S t _ (Nat.log S (normalizeDelay d) + 1),
        hUp2 _, hFrom2 _, hUp1 _, hFrom1 _, if_pos rfl, if_pos rfl]
    simp
  obtain ⟨wpre, htpre, hInvpre, hprespre⟩ := tick_effect hS hn
    (t - t % S ^ Nat.log S (normalizeDelay d) + normalizeDelay d - t - 1) t _ hInv2
  obtain ⟨w', htp, _, _⟩ := tickPass_effect hS hn hInvpre
  have harg : t + (t - t % S ^ Nat.log S (normalizeDelay d) + normalizeDelay d - t - 1) + 1 =
      t - t % S ^ Nat.log S (normalizeDelay d) + normalizeDelay d := by omega
  rw [harg] at htp
  refine ⟨t - t % S ^ Nat.log S (normalizeDelay d) + normalizeDelay d - t,
    wheelDueUpTo S t (t - t % S ^ Nat.log S (normalizeDelay d) + normalizeDelay d)
      (Nat.log S (normalizeDelay d) + 1) w,
    wheelDueFrom S t (t - t % S ^ Nat.log S (normalizeDelay d) + normalizeDelay d)
      (Nat.log S (normalizeDelay d) + 1) w,
    hm1, wpre, _, w', htpre, ?_⟩
  rw [tick_one, htp, hprespre _ (by omega), hdue2]

/-- C8, witness: payloads 5 then 6 scheduled with delay 1 on a fresh
wheel fire together, adjacent, in order. -/
theorem C8_witness :
    ∃ m u v, 1 ≤ m ∧
      ∃ wpre opre w' ,
        ((((HierarchicalTimingWheel.new Nat 2 4 2).schedule 1 5).1.schedule 1 6).1).tick
            (m - 1) = some (wpre, opre) ∧
        wpre.tick 1 = some (w', u ++ 5 :: 6 :: v) :=
  C8_same_slot_batching 2 2 4 0 1 _ 5 6 (by decide) (by decide) Reachable.init
    (by decide)

end TimingWheel
